import Mathlib

/-!
Shallow embedding of the device digit-map generator (res_digitmap.c) from the
phreakscript repository, together with theorems checking the natural-language
specification against it.

The routing-configuration store (contexts, extensions, includes, the per-context
ignore-pattern predicate) is an external collaborator of the module; it is
modelled as an abstract record of data that the generator reads, matching the
collaborator interface the module consumes: find-context by name, ordered
enumeration of a context's extensions and includes, and the ignore predicate.

The output buffer (a fixed 2048-byte char array written through snprintf with
pointer/length arithmetic) is modelled as a committed character list plus a
remaining-capacity counter; the buf_append macro of the source is the only way
the buffer is written.  Diagnostics (ast_log warnings and the per-push debug
line) are modelled as an append-only list of Diag values.
-/

namespace Digitmap

/-- AST_PBX_MAX_STACK: the maximum dialplan include depth, a constant the
module shares with the dialplan engine (pbx.h). -/
def AST_PBX_MAX_STACK : Nat := 128

/-- BUF_SIZE: Grandstream devices only support a digit map of max length 2048. -/
def BUF_SIZE : Nat := 2048

/-- The diagnostics the generator can emit (ast_log warnings, plus the
per-context-push debug line of line 82 which records the stack index used). -/
inductive Diag where
  /-- line 77: No such context -/
  | contextNotFound (ctx : String)
  /-- line 82: Crawling context #idx (the index the context name is pushed at) -/
  | crawl (idx : Nat) (ctx : String)
  /-- line 149: Dialplan is invalid (nested open bracket) -/
  | invalidNested (ext : String)
  /-- line 157: Dialplan is invalid (unmatched close bracket) -/
  | invalidUnmatched (ext : String)
  /-- line 162: Generated digit map will be invalid: digit/range combination -/
  | malformedCombo (ext : String)
  /-- line 169: periods should not appear inside brackets -/
  | invalidPeriod (ext : String)
  /-- line 191: No space left in digit map buffer -/
  | bufferExhausted
  /-- line 200: Maximum include depth exceeded -/
  | maxDepthExceeded
  /-- line 227: Empty include context -/
  | emptyInclude
  /-- line 250: Avoiding circular include of inc within ctx -/
  | circularInclude (inc ctx : String)
  deriving DecidableEq, Repr

/-- The committed output buffer plus remaining capacity, and the diagnostics
emitted so far.  Committed content only grows; rem only shrinks. -/
structure GBuf where
  out : List Char
  rem : Nat
  diags : List Diag
  deriving DecidableEq, Repr

/-- The buf_append macro (lines 47-55): bytes = snprintf(...); if
(bytes >= len) fail (res = -1, break) without advancing; else advance the
cursor and shrink the remaining length. -/
def buf_append (frag : List Char) (st : GBuf) : Option GBuf :=
  if st.rem ≤ frag.length then none
  else some { st with out := st.out ++ frag, rem := st.rem - frag.length }

/-- One extension entry of a context: its name (ast_get_extension_name) and
its priority (ast_get_extension_priority). -/
structure ast_exten where
  name : String
  priority : Int
  deriving DecidableEq, Repr

/-- One dialplan context of the routing store: its name, its extensions in
store order, and its include entries (raw include name strings) in store
order. -/
structure ast_context where
  name : String
  extens : List ast_exten
  includes : List String
  deriving DecidableEq, Repr

/-- The routing-configuration store: the contexts, and the external
ast_ignore_pattern predicate (context name, first dialed digit). -/
structure Store where
  contexts : List ast_context
  ignorepat : String → Char → Bool

/-- ast_context_find: look the context up by name in the store. -/
def ast_context_find (s : Store) (nm : String) : Option ast_context :=
  s.contexts.find? (fun c => c.name == nm)

/-- The per-character translation used by the generator (lines 134-179):
N expands to the 2-9 class, Z to the 1-9 class, X becomes lowercase x,
the bang becomes S0, and every other character is copied literally
(the bracket bookkeeping is tracked separately and affects diagnostics
only, never the emitted characters). -/
def transChar (c : Char) : List Char :=
  if c = 'N' then ['[', '2', '-', '9', ']']
  else if c = 'Z' then ['[', '1', '-', '9', ']']
  else if c = 'X' then ['x']
  else if c = '!' then ['S', '0']
  else [c]

/-- The full character-wise translation of a (sentinel-stripped) pattern. -/
def translatePattern (nm : List Char) : List Char :=
  (nm.map transChar).flatten

/-- The mutable bracket-tracking state of the per-pattern loop:
in_pattern, current_pattern_items, contains_range (lines 89-91). -/
structure PatState where
  in_pattern : Int
  current_pattern_items : Int
  contains_range : Int
  deriving DecidableEq, Repr

/-- Bracket bookkeeping for one literally-copied character (lines 146-177):
given the character and the current state, the new state and the diagnostics
emitted.  Characters that take the N/Z/X/bang branches do no bookkeeping. -/
def bookkeep (ext : String) (c : Char) (ps : PatState) : PatState × List Diag :=
  if c = 'N' ∨ c = 'Z' ∨ c = 'X' ∨ c = '!' then (ps, [])
  else if c = '[' then
    let ip := ps.in_pattern + 1
    if 1 < ip then (⟨1, 0, 0⟩, [Diag.invalidNested ext])
    else (⟨ip, 0, 0⟩, [])
  else if c = ']' then
    let ip := ps.in_pattern - 1
    let d1 : List Diag := if ip < 0 then [Diag.invalidUnmatched ext] else []
    let ip' : Int := if ip < 0 then 0 else ip
    let d2 : List Diag :=
      if ps.contains_range ≠ 0 ∧ 1 < ps.current_pattern_items
      then [Diag.malformedCombo ext] else []
    (⟨ip', 0, 0⟩, d1 ++ d2)
  else if ps.in_pattern ≠ 0 then
    if c = '.' then (ps, [Diag.invalidPeriod ext])
    else if c = '-' then
      (⟨ps.in_pattern, ps.current_pattern_items - 1, ps.contains_range + 1⟩, [])
    else (⟨ps.in_pattern, ps.current_pattern_items + 1, ps.contains_range⟩, [])
  else (ps, [])

/-- One iteration of the per-pattern character loop (the body of the while of
lines 126-186) on character c: the leading second-dial-tone comma of line 128
(with a non-empty prefix a pending ignorepat inserts the comma right after the
prefix, before the first translated character), the translation with bracket
bookkeeping, and the trailing comma of line 180 (with an empty prefix the
comma goes right after the first translated character).  Sum.inl is a failed
buf_append: res = -1 and break out of the loop with the given buffer state;
Sum.inr carries the ignorepat flag, bracket state and buffer for the next
iteration. -/
def charStep (ext : String) (pfx : List Char) (c : Char) (ig0 : Bool)
    (ps : PatState) (st0 : GBuf) : GBuf ⊕ (Bool × PatState × GBuf) :=
  match (if pfx ≠ [] ∧ ig0 then
          match buf_append [','] st0 with
          | none => none
          | some st1 => some (false, st1)
        else some (ig0, st0) : Option (Bool × GBuf)) with
  | none => Sum.inl st0
  | some (ig1, st1) =>
    let bk := bookkeep ext c ps
    let st2 : GBuf := { st1 with diags := st1.diags ++ bk.2 }
    match buf_append (transChar c) st2 with
    | none => Sum.inl st2
    | some st3 =>
      if pfx = [] ∧ ig1 then
        match buf_append [','] st3 with
        | none => Sum.inl st3
        | some st4 => Sum.inr (false, bk.1, st4)
      else Sum.inr (ig1, bk.1, st3)

/-- The per-pattern character loop (lines 126-186): iterate charStep over the
pattern characters.  Returns (failed, state): failed means a buf_append hit
the capacity check (res = -1 and break out of this loop in the source). -/
def charLoop (ext : String) (pfx : List Char) :
    List Char → Bool → PatState → GBuf → Bool × GBuf
  | [], _ig, _ps, st => (false, st)
  | c :: rest, ig0, ps, st0 =>
    match charStep ext pfx c ig0 ps st0 with
    | Sum.inl stf => (true, stf)
    | Sum.inr (ig1, ps1, st1) => charLoop ext pfx rest ig1 ps1 st1

/-- Outcome of processing one extension entry: continue the extension walk
(possibly with res set to -1 by a failed append inside the character loop,
whose break only leaves that inner loop), or break out of the extension walk
(a failed append of the separator or prefix). -/
inductive ExtOutcome where
  | cont (failed : Bool)
  | brk
  deriving DecidableEq, Repr

/-- Strip the leading pattern sentinel if present (lines 104-106). -/
def stripSentinel (nm : String) : List Char :=
  match nm.toList with
  | '_' :: rest => rest
  | l => l

/-- The reserved special dialplan extension names skipped at line 94. -/
def reservedNames : List String := ["a", "i", "s", "t"]

/-- Processing of one extension entry inside the walk (lines 86-187):
skip reserved names and non-priority-1 entries, strip the sentinel, compute
the first dialed digit, query the ignore predicate over the include stack,
then append the separator, the prefix and the translated pattern. -/
def processExten (s : Store) (stack : List String) (pfx : List Char)
    (e : ast_exten) (st : GBuf) : ExtOutcome × GBuf :=
  if e.name = "a" ∨ e.name = "i" ∨ e.name = "s" ∨ e.name = "t" then
    (ExtOutcome.cont false, st)
  else if e.priority ≠ 1 then (ExtOutcome.cont false, st)
  else
    let nm : List Char := stripSentinel e.name
    let firstchar : Char :=
      if pfx ≠ [] then pfx.headD (Char.ofNat 0) else nm.headD (Char.ofNat 0)
    let ig : Bool := stack.any (fun cn => s.ignorepat cn firstchar)
    match buf_append ['|'] st with
    | none => (ExtOutcome.brk, st)
    | some st1 =>
      match buf_append pfx st1 with
      | none => (ExtOutcome.brk, st1)
      | some st2 =>
        let r := charLoop e.name pfx nm ig ⟨0, 0, 0⟩ st2
        (ExtOutcome.cont r.1, r.2)

/-- The extension walk (lines 86-188), threading res: a break result stops the
walk with res = -1; a failed character loop sets res = -1 but the walk
continues with the next extension (the macro's break only leaves the inner
loop). -/
def extenLoop (s : Store) (stack : List String) (pfx : List Char) :
    List ast_exten → Int → GBuf → Int × GBuf
  | [], res, st => (res, st)
  | e :: rest, res, st =>
    match processExten s stack pfx e st with
    | (ExtOutcome.brk, st') => (-1, st')
    | (ExtOutcome.cont failed, st') =>
      extenLoop s stack pfx rest (if failed then -1 else res) st'

/-- strchr followed by splitting at the found character: before and after. -/
def strchrSplit (ch : Char) : List Char → Option (List Char × List Char)
  | [] => none
  | c :: rest =>
    if c = ch then some ([], rest)
    else match strchrSplit ch rest with
      | none => none
      | some (a, b) => some (c :: a, b)

/-- Parsing of a raw include entry (lines 204-224): the include name is the
part before the first bar, the sub-prefix is everything after the second bar
(empty when absent), and the name is further truncated at its first comma. -/
def parseInclude (raw : String) : String × List Char :=
  let l := raw.toList
  let split : List Char × List Char :=
    match strchrSplit '|' l with
    | none => (l, [])
    | some (before, rest) =>
      match strchrSplit '|' rest with
      | none => (before, [])
      | some (_, after2) => (before, after2)
  let namePart : List Char :=
    match strchrSplit ',' split.1 with
    | none => split.1
    | some (before, _) => before
  (String.mk namePart, split.2)

/-- strcasecmp equality (the duplicate check of line 233 is case-insensitive). -/
def strcaseeq (a b : String) : Bool :=
  a.toList.map Char.toLower == b.toList.map Char.toLower

/-- One iteration of the include walk (lines 196-257), abstracted over the
recursive call G performed on a fresh (non-duplicate, in-depth) include:
skip everything once res is negative (the loop condition and the break),
emit a diagnostic and skip the branch at maximum depth, on an empty parsed
name, or on a duplicate (case-insensitive) name already on the stack, and
otherwise recurse with the extended prefix. -/
def includeStep (s : Store) (pfx : List Char) (context : String)
    (stack' : List String) (G : List Char → String → GBuf → Int × GBuf) :
    Int × GBuf → String → Int × GBuf := fun acc inc =>
  if acc.1 < 0 then acc
  else if AST_PBX_MAX_STACK ≤ stack'.length then
    (acc.1, { acc.2 with diags := acc.2.diags ++ [Diag.maxDepthExceeded] })
  else
    let pr := parseInclude inc
    if pr.1 = "" then
      (acc.1, { acc.2 with diags := acc.2.diags ++ [Diag.emptyInclude] })
    else if stack'.any (fun x => strcaseeq x pr.1) then
      (acc.1, { acc.2 with diags := acc.2.diags ++ [Diag.circularInclude inc context] })
    else
      G ((pfx ++ pr.2).take 31) pr.1 acc.2

/-- The whole body of one generate_digit_map call (lines 62-266), abstracted
over the recursive call G used by the include walk: resolve the context (a
failed lookup is the ContextNotFound failure), push the context name at index
includecount (the crawl diagnostic records that index), walk the extensions,
emit the truncation warning when res is set and no capacity remains, then walk
the includes, and return res: negative on failure, otherwise the bytes this
call committed. -/
def genBody (s : Store) (pfx : List Char) (context : String)
    (stack : List String) (st : GBuf)
    (G : List Char → String → GBuf → Int × GBuf) : Int × GBuf :=
  match ast_context_find s context with
  | none => (-1, { st with diags := st.diags ++ [Diag.contextNotFound context] })
  | some c =>
    let st0 : GBuf := { st with diags := st.diags ++ [Diag.crawl stack.length context] }
    let stack' := stack ++ [context]
    let startLen := st0.out.length
    let r1 := extenLoop s stack' pfx c.extens 0 st0
    let st1 : GBuf :=
      if r1.1 ≠ 0 ∧ r1.2.rem = 0
      then { r1.2 with diags := r1.2.diags ++ [Diag.bufferExhausted] } else r1.2
    let r2 := c.includes.foldl (includeStep s pfx context stack' G) (r1.1, st1)
    (if r2.1 < 0 then r2.1 else ((r2.2.out.length - startLen : Int)), r2.2)

/-- generate_digit_map (lines 62-266).  The prefix is the accumulated dial
prefix (the source normalises NULL to the empty string on entry), stack is the
content of the includes array up to includecount (the names pushed by the
calls currently on the way here), st the shared output buffer view.  Returns
the res of the source: -1 on failure, otherwise the number of bytes this call
committed (buf - start), together with the final buffer state. -/
def generate_digit_map (s : Store) (pfx : List Char) (context : String)
    (stack : List String) (st : GBuf) : Int × GBuf :=
  match ast_context_find s context with
  | none => (-1, { st with diags := st.diags ++ [Diag.contextNotFound context] })
  | some c =>
    -- lines 81-83: push the context name at index includecount, log, increment
    let st0 : GBuf := { st with diags := st.diags ++ [Diag.crawl stack.length context] }
    let stack' := stack ++ [context]
    let startLen := st0.out.length
    let r1 := extenLoop s stack' pfx c.extens 0 st0
    -- line 190: truncation warning
    let st1 : GBuf :=
      if r1.1 ≠ 0 ∧ r1.2.rem = 0
      then { r1.2 with diags := r1.2.diags ++ [Diag.bufferExhausted] } else r1.2
    -- lines 195-258: the include walk (runs while res >= 0; a failed recursive
    -- call breaks out, which coincides with the res >= 0 loop condition)
    let r2 :=
      c.includes.foldl (fun (acc : Int × GBuf) (inc : String) =>
        if acc.1 < 0 then acc
        else if AST_PBX_MAX_STACK ≤ stack'.length then
          (acc.1, { acc.2 with diags := acc.2.diags ++ [Diag.maxDepthExceeded] })
        else
          let pr := parseInclude inc
          if pr.1 = "" then
            (acc.1, { acc.2 with diags := acc.2.diags ++ [Diag.emptyInclude] })
          else if stack'.any (fun x => strcaseeq x pr.1) then
            (acc.1, { acc.2 with diags := acc.2.diags ++ [Diag.circularInclude inc context] })
          else
            generate_digit_map s ((pfx ++ pr.2).take 31) pr.1 stack' acc.2)
        (r1.1, st1)
    (if r2.1 < 0 then r2.1 else ((r2.2.out.length - startLen : Int)), r2.2)
termination_by AST_PBX_MAX_STACK - stack.length
decreasing_by
  simp only [stack', List.length_append, List.length_cons, List.length_nil] at *
  omega

/-- A fuel-indexed mirror of generate_digit_map whose recursion is structural
on the fuel, so that concrete runs reduce inside the kernel; proved equal to
generate_digit_map whenever the fuel exceeds the remaining stack headroom. -/
def generate_rec (fuel : Nat) (s : Store) (pfx : List Char) (context : String)
    (stack : List String) (st : GBuf) : Int × GBuf :=
  match fuel with
  | 0 => (-1, st)
  | fuel + 1 =>
    genBody s pfx context stack st
      (fun p n stb => generate_rec fuel s p n (stack ++ [context]) stb)

/-- generate_digit_map_all (lines 268-300): the driver.  Allocates the
2048-byte buffer, calls the generator with a NULL (empty) prefix and an empty
include stack; on res <= 0 returns res with no output; otherwise prints the
buffer from its second character on (skipping the leading separator). -/
def generate_digit_map_all (s : Store) (context : String) :
    Int × Option (List Char) × List Diag :=
  let r := generate_digit_map s [] context [] ⟨[], BUF_SIZE, []⟩
  if r.1 ≤ 0 then (r.1, none, r.2.diags)
  else (0, some (r.2.out.drop 1), r.2.diags)

/-! ### Notions used by the verification layer -/

/-- Whether a diagnostic is the per-push crawl debug record. -/
def isCrawl : Diag → Bool
  | Diag.crawl _ _ => true
  | _ => false

/-- Diagnostics are acceptable when any crawl record (a write into the
includes array at that index) uses an in-bounds index. -/
def CrawlOk (d : Diag) : Prop := ∀ n c, d = Diag.crawl n c → n < AST_PBX_MAX_STACK

/-- How the generator evolves the buffer state: remaining capacity stays
positive, committed length plus remaining capacity is preserved (the committed
output can only have grown, by at most the consumed capacity), and diagnostics
are only appended, each new one satisfying P. -/
def Grows (P : Diag → Prop) (st st' : GBuf) : Prop :=
  1 ≤ st'.rem ∧ st'.out.length + st'.rem = st.out.length + st.rem ∧
    ∃ ds, st'.diags = st.diags ++ ds ∧ ∀ d ∈ ds, P d

/-- The buffer state a charStep result carries. -/
def charStepSt : GBuf ⊕ (Bool × PatState × GBuf) → GBuf
  | Sum.inl stf => stf
  | Sum.inr (_, _, st') => st'

/-- The first dialed digit an extension entry is matched against: the first
character of the accumulated prefix when it is non-empty, otherwise the first
character of the sentinel-stripped pattern name (line 108). -/
def firstDialed (pfx : List Char) (nm : List Char) : Char :=
  if pfx ≠ [] then pfx.headD (Char.ofNat 0) else nm.headD (Char.ofNat 0)

/-- The entries the extension walk keeps: priority 1 and a raw name that is
not one of the reserved special names (the source checks the name before
stripping the pattern sentinel). -/
def keptP (e : ast_exten) : Bool :=
  e.priority == 1 &&
    !(e.name == "a" || e.name == "i" || e.name == "s" || e.name == "t")

def keptExtens (l : List ast_exten) : List ast_exten := l.filter keptP

/-- The raw characters the extension walk emits for a context with an empty
prefix and no ignorepat matches: a leading separator before each kept entry's
translated pattern. -/
def rawEmit (l : List ast_exten) : List Char :=
  ((keptExtens l).map (fun e => '|' :: translatePattern (stripSentinel e.name))).flatten

/-- The specification-side join: the translated patterns joined with a single
separator between adjacent alternatives and no leading separator. -/
def joinBar : List (List Char) → List Char
  | [] => []
  | [p] => p
  | p :: q :: rest => p ++ '|' :: joinBar (q :: rest)


/-- The bracket-bookkeeping diagnostics accumulated over a whole pattern
(the exact diagnostic trace of a failure-free character loop run with no
pending ignorepat). -/
def bookkeepRun (ext : String) : List Char → PatState → List Diag
  | [], _ => []
  | c :: rest, ps => (bookkeep ext c ps).2 ++ bookkeepRun ext rest (bookkeep ext c ps).1

/-! ### Concrete stores used by the claim checks -/

/-- The store of the C5 scenario: context A has one priority-1 pattern
extension and includes B with sub-prefix 9; B has one priority-1 pattern
extension; no ignore pattern is active anywhere. -/
def storeC5 : Store :=
  { contexts := [⟨"A", [⟨"_1XXX", 1⟩], ["B||9"]⟩, ⟨"B", [⟨"_NXX", 1⟩], []⟩],
    ignorepat := fun _ _ => false }

/-- An include cycle A includes B, B includes A. -/
def storeCycle : Store :=
  { contexts := [⟨"A", [⟨"_1", 1⟩], ["B"]⟩, ⟨"B", [⟨"_2", 1⟩], ["A"]⟩],
    ignorepat := fun _ _ => false }

/-- A context that includes itself directly. -/
def storeSelf : Store :=
  { contexts := [⟨"A", [⟨"_1", 1⟩], ["A"]⟩], ignorepat := fun _ _ => false }

/-- Context A includes a dangling (unresolvable) context B and then a
perfectly valid sibling C. -/
def storeDangling : Store :=
  { contexts := [⟨"A", [⟨"_1", 1⟩], ["B", "C"]⟩, ⟨"C", [⟨"_3", 1⟩], []⟩],
    ignorepat := fun _ _ => false }

/-- Context A with no extensions whose include list starts with an
unresolvable context name. -/
def storeMissing (bname : String) (rest : List String) : Store :=
  { contexts := [⟨"A", [], bname :: rest⟩], ignorepat := fun _ _ => false }

/-- A single context whose only extension is the given entry list, with no
includes and no ignore patterns. -/
def storeSingle (l : List ast_exten) : Store :=
  { contexts := [⟨"A", l, []⟩], ignorepat := fun _ _ => false }

/-- Context A (uppercase) including the lowercase spelling of its own name. -/
def storeCaseIns : Store :=
  { contexts := [⟨"A", [⟨"_1", 1⟩], ["a"]⟩], ignorepat := fun _ _ => false }

/-- Context A with no own extensions including B under the given raw include
sub-prefix characters; B has one priority-1 extension _2. -/
def storeC9 (sub : List Char) : Store :=
  { contexts := [⟨"A", [], [String.mk ('B' :: '|' :: '|' :: sub)]⟩,
                 ⟨"B", [⟨"_2", 1⟩], []⟩],
    ignorepat := fun _ _ => false }

/-- The specification-side filter of C4: priority 1 and a reserved-name check
applied to the sentinel-STRIPPED name (the claim's wording). -/
def keptStrippedP (e : ast_exten) : Bool :=
  e.priority == 1 && !(reservedNames.contains (String.mk (stripSentinel e.name)))

/-- The specification-side digit map of C4, built from the claim's words: the
bar-joined translated patterns of the entries keptStrippedP keeps. -/
def specStrippedJoin (c : ast_context) : List Char :=
  joinBar ((c.extens.filter keptStrippedP).map
    (fun e => translatePattern (stripSentinel e.name)))

/-! ### Structured unfolding of the generator -/

/-- generate_digit_map is one genBody step whose recursive calls are
generate_digit_map itself on the extended stack. -/
theorem generate_digit_map_eq_body (s : Store) (pfx : List Char) (context : String)
    (stack : List String) (st : GBuf) :
    generate_digit_map s pfx context stack st =
      genBody s pfx context stack st
        (fun p n stb => generate_digit_map s p n (stack ++ [context]) stb) := by
  rw [generate_digit_map]
  rfl

/-- Pointwise congruence of the include step in its recursive-call argument;
the recursion only matters below the maximum-depth guard. -/
theorem includeStep_congr {s : Store} {pfx : List Char} {context : String}
    {stack' : List String} {G1 G2 : List Char → String → GBuf → Int × GBuf}
    (hG : ¬ AST_PBX_MAX_STACK ≤ stack'.length → ∀ p n stb, G1 p n stb = G2 p n stb)
    (a : Int × GBuf) (i : String) :
    includeStep s pfx context stack' G1 a i = includeStep s pfx context stack' G2 a i := by
  unfold includeStep
  by_cases h1 : a.1 < 0
  · simp [h1]
  · by_cases h2 : AST_PBX_MAX_STACK ≤ stack'.length
    · simp [h1, h2]
    · by_cases h3 : (parseInclude i).1 = ""
      · simp [h1, h2, h3]
      · by_cases h4 : stack'.any (fun x => strcaseeq x (parseInclude i).1)
        · simp [h1, h2, h3, h4]
        · simp [h1, h2, h3, h4, hG h2]

/-- Congruence of the whole call body in its recursive-call argument. -/
theorem genBody_congr {s : Store} {pfx : List Char} {context : String}
    {stack : List String} {st : GBuf}
    {G1 G2 : List Char → String → GBuf → Int × GBuf}
    (hG : ¬ AST_PBX_MAX_STACK ≤ (stack ++ [context]).length →
      ∀ p n stb, G1 p n stb = G2 p n stb) :
    genBody s pfx context stack st G1 = genBody s pfx context stack st G2 := by
  unfold genBody
  cases ast_context_find s context with
  | none => rfl
  | some c =>
    simp only
    rw [List.foldl_ext (includeStep s pfx context (stack ++ [context]) G1)
      (includeStep s pfx context (stack ++ [context]) G2) _
      (fun a b _ => includeStep_congr hG a b)]

/-- Fuel irrelevance: with enough fuel for the remaining stack headroom, the
structural mirror computes exactly generate_digit_map, so concrete runs can be
settled by kernel evaluation of the mirror. -/
theorem generate_rec_eq : ∀ (fuel : Nat) (s : Store) (pfx : List Char)
    (context : String) (stack : List String) (st : GBuf),
    AST_PBX_MAX_STACK - stack.length < fuel →
    generate_rec fuel s pfx context stack st = generate_digit_map s pfx context stack st := by
  intro fuel
  induction fuel with
  | zero => intro s pfx context stack st h; omega
  | succ f ih =>
    intro s pfx context stack st h
    rw [generate_rec, generate_digit_map_eq_body]
    exact genBody_congr (fun hdepth p n stb => by
      apply ih
      simp only [List.length_append, List.length_cons, List.length_nil] at hdepth ⊢
      omega)

/-! ### The buffer/diagnostic evolution invariant -/

theorem Grows.rfl {P : Diag → Prop} {st : GBuf} (h : 1 ≤ st.rem) : Grows P st st :=
  ⟨h, Eq.refl _, [], by simp, by simp⟩

theorem Grows.trans {P : Diag → Prop} {st1 st2 st3 : GBuf}
    (h1 : Grows P st1 st2) (h2 : Grows P st2 st3) : Grows P st1 st3 := by
  obtain ⟨hr1, ht1, ds1, hd1, hp1⟩ := h1
  obtain ⟨hr2, ht2, ds2, hd2, hp2⟩ := h2
  refine ⟨hr2, by omega, ds1 ++ ds2, by simp [hd2, hd1], ?_⟩
  intro d hd
  rcases List.mem_append.1 hd with h | h
  exacts [hp1 d h, hp2 d h]

theorem Grows.mono {P Q : Diag → Prop} {st st' : GBuf} (hPQ : ∀ d, P d → Q d)
    (h : Grows P st st') : Grows Q st st' := by
  obtain ⟨hr, ht, ds, hd, hp⟩ := h
  exact ⟨hr, ht, ds, hd, fun d hdm => hPQ d (hp d hdm)⟩

theorem grows_append_diags {P : Diag → Prop} {st : GBuf} {ds : List Diag}
    (h : 1 ≤ st.rem) (hds : ∀ d ∈ ds, P d) :
    Grows P st { st with diags := st.diags ++ ds } :=
  ⟨h, by simp, ds, by simp, hds⟩

theorem buf_append_some {frag : List Char} {st st' : GBuf}
    (h : buf_append frag st = some st') :
    st' = { st with out := st.out ++ frag, rem := st.rem - frag.length } ∧
      frag.length < st.rem := by
  by_cases hc : st.rem ≤ frag.length
  · simp [buf_append, hc] at h
  · simp [buf_append, hc] at h
    exact ⟨h.symm, by omega⟩

theorem buf_append_grows {P : Diag → Prop} {frag : List Char} {st st' : GBuf}
    (h : buf_append frag st = some st') : Grows P st st' := by
  obtain ⟨hst, hlt⟩ := buf_append_some h
  subst hst
  refine ⟨by simp; omega, by simp; omega, [], by simp, by simp⟩

/-- Diagnostics emitted by the bracket bookkeeping are never crawl records. -/
theorem bookkeep_no_crawl (ext : String) (c : Char) (ps : PatState) :
    ∀ d ∈ (bookkeep ext c ps).2, isCrawl d = false := by
  unfold bookkeep
  dsimp only
  repeat' split
  all_goals intro d hd
  all_goals simp only [List.mem_append, List.mem_singleton, List.not_mem_nil,
    or_false, false_or] at hd
  all_goals try rcases hd with rfl | rfl
  all_goals simp_all [isCrawl]

/-- One character step only appends non-crawl diagnostics and preserves the
capacity invariant. -/
theorem charStep_grows (ext : String) (pfx : List Char) (c : Char) (ig0 : Bool)
    (ps : PatState) (st0 : GBuf) (h : 1 ≤ st0.rem) :
    Grows (fun d => isCrawl d = false) st0 (charStepSt (charStep ext pfx c ig0 ps st0)) := by
  unfold charStep
  have gpre : ∀ (ig1 : Bool) (st1 : GBuf),
      (if pfx ≠ [] ∧ ig0 then
          match buf_append [','] st0 with
          | none => none
          | some st1 => some (false, st1)
        else some (ig0, st0) : Option (Bool × GBuf)) = some (ig1, st1) →
      Grows (fun d => isCrawl d = false) st0 st1 := by
    intro ig1 st1 hx
    by_cases hpre : pfx ≠ [] ∧ ig0
    · rw [if_pos hpre] at hx
      cases h1 : buf_append [','] st0 with
      | none => rw [h1] at hx; cases hx
      | some stx =>
        rw [h1] at hx
        simp only [Option.some.injEq, Prod.mk.injEq] at hx
        rw [← hx.2]
        exact buf_append_grows h1
    · rw [if_neg hpre] at hx
      simp only [Option.some.injEq, Prod.mk.injEq] at hx
      rw [← hx.2]
      exact Grows.rfl h
  cases hx : (if pfx ≠ [] ∧ ig0 then
      match buf_append [','] st0 with
      | none => none
      | some st1 => some (false, st1)
    else some (ig0, st0) : Option (Bool × GBuf)) with
  | none => exact Grows.rfl h
  | some p =>
    obtain ⟨ig1, st1⟩ := p
    have g1 := gpre ig1 st1 hx
    simp only [charStepSt]
    have g2 : Grows (fun d => isCrawl d = false) st0
        { st1 with diags := st1.diags ++ (bookkeep ext c ps).2 } :=
      Grows.trans g1 (grows_append_diags g1.1 (bookkeep_no_crawl ext c ps))
    cases h2 : buf_append (transChar c)
        { st1 with diags := st1.diags ++ (bookkeep ext c ps).2 } with
    | none => exact g2
    | some st3 =>
      dsimp only
      have g3 : Grows (fun d => isCrawl d = false) st0 st3 :=
        Grows.trans g2 (buf_append_grows h2)
      by_cases htr : pfx = [] ∧ ig1
      · rw [if_pos htr]
        cases h3 : buf_append [','] st3 with
        | none => exact g3
        | some st4 => exact Grows.trans g3 (buf_append_grows h3)
      · rw [if_neg htr]
        exact g3

/-- New diagnostics emitted by the character loop are never crawl records,
remaining capacity stays positive, and committed length plus remaining
capacity is preserved. -/
theorem charLoop_grows (ext : String) (pfx : List Char) :
    ∀ (nm : List Char) (ig : Bool) (ps : PatState) (st : GBuf), 1 ≤ st.rem →
      Grows (fun d => isCrawl d = false) st (charLoop ext pfx nm ig ps st).2 := by
  intro nm
  induction nm with
  | nil => intro ig ps st h; exact Grows.rfl h
  | cons c rest ih =>
    intro ig ps st h
    rw [charLoop]
    have gs := charStep_grows ext pfx c ig ps st h
    cases hx : charStep ext pfx c ig ps st with
    | inl stf => rw [hx] at gs; exact gs
    | inr p =>
      obtain ⟨ig1, ps1, st1⟩ := p
      rw [hx] at gs
      simp only [charStepSt] at gs
      exact Grows.trans gs (ih ig1 ps1 st1 gs.1)

/-- Processing one extension entry only appends non-crawl diagnostics and
preserves the capacity invariant. -/
theorem processExten_grows (s : Store) (stack : List String) (pfx : List Char)
    (e : ast_exten) (st : GBuf) (h : 1 ≤ st.rem) :
    Grows (fun d => isCrawl d = false) st (processExten s stack pfx e st).2 := by
  unfold processExten
  by_cases h1 : e.name = "a" ∨ e.name = "i" ∨ e.name = "s" ∨ e.name = "t"
  · rw [if_pos h1]; exact Grows.rfl h
  · rw [if_neg h1]
    by_cases h2 : e.priority ≠ 1
    · rw [if_pos h2]; exact Grows.rfl h
    · rw [if_neg h2]
      dsimp only
      cases ha : buf_append ['|'] st with
      | none => exact Grows.rfl h
      | some st1 =>
        dsimp only
        have g1 : Grows (fun d => isCrawl d = false) st st1 := buf_append_grows ha
        cases hb : buf_append pfx st1 with
        | none => exact g1
        | some st2 =>
          dsimp only
          have g2 : Grows (fun d => isCrawl d = false) st st2 :=
            Grows.trans g1 (buf_append_grows hb)
          exact Grows.trans g2
            (charLoop_grows e.name pfx (stripSentinel e.name) _ _ st2 g2.1)

/-- The extension walk only appends non-crawl diagnostics and preserves the
capacity invariant. -/
theorem extenLoop_grows (s : Store) (stack : List String) (pfx : List Char) :
    ∀ (l : List ast_exten) (res : Int) (st : GBuf), 1 ≤ st.rem →
      Grows (fun d => isCrawl d = false) st (extenLoop s stack pfx l res st).2 := by
  intro l
  induction l with
  | nil => intro res st h; exact Grows.rfl h
  | cons e rest ih =>
    intro res st h
    rw [extenLoop]
    have gp := processExten_grows s stack pfx e st h
    cases hp : processExten s stack pfx e st with
    | mk oc st' =>
      rw [hp] at gp
      cases oc with
      | brk => exact gp
      | cont failed => exact Grows.trans gp (ih _ st' gp.1)

/-- Generic preservation through the include-walk fold. -/
theorem foldl_grows {P : Diag → Prop} (f : Int × GBuf → String → Int × GBuf)
    (hf : ∀ (a : Int × GBuf) (x : String), 1 ≤ a.2.rem → Grows P a.2 (f a x).2) :
    ∀ (l : List String) (a : Int × GBuf), 1 ≤ a.2.rem →
      Grows P a.2 (l.foldl f a).2 := by
  intro l
  induction l with
  | nil => intro a h; exact Grows.rfl h
  | cons x rest ih =>
    intro a h
    rw [List.foldl_cons]
    have g1 := hf a x h
    exact Grows.trans g1 (ih (f a x) g1.1)

/-- The generator (structural mirror) preserves the invariant: capacity stays
positive, committed plus remaining is preserved, diagnostics are appended
only, and any new crawl record carries an in-bounds stack index — provided
the call starts below the maximum depth, as every reachable call does. -/
theorem generate_rec_grows :
    ∀ (fuel : Nat) (s : Store) (pfx : List Char) (context : String)
      (stack : List String) (st : GBuf), 1 ≤ st.rem →
      stack.length < AST_PBX_MAX_STACK →
      Grows CrawlOk st (generate_rec fuel s pfx context stack st).2 := by
  intro fuel
  induction fuel with
  | zero => intro s pfx context stack st h hs; exact Grows.rfl h
  | succ f ih =>
    intro s pfx context stack st h hs
    rw [generate_rec]
    unfold genBody
    cases hfind : ast_context_find s context with
    | none =>
      exact grows_append_diags h (by intro d hd; simp at hd; subst hd; intro n c hc; cases hc)
    | some c =>
      dsimp only
      have g0 : Grows CrawlOk st
          { st with diags := st.diags ++ [Diag.crawl stack.length context] } := by
        refine grows_append_diags h ?_
        intro d hd
        simp at hd
        subst hd
        intro n cx hc
        cases hc
        exact hs
      have g1 : Grows CrawlOk st
          (extenLoop s (stack ++ [context]) pfx c.extens 0
            { st with diags := st.diags ++ [Diag.crawl stack.length context] }).2 :=
        Grows.trans g0 (Grows.mono (fun d hd => by intro n cx hc; rw [hc] at hd; cases hd)
          (extenLoop_grows s (stack ++ [context]) pfx c.extens 0 _ g0.1))
      have hrem1 : ¬((extenLoop s (stack ++ [context]) pfx c.extens 0
          { st with diags := st.diags ++ [Diag.crawl stack.length context] }).1 ≠ 0 ∧
          (extenLoop s (stack ++ [context]) pfx c.extens 0
            { st with diags := st.diags ++ [Diag.crawl stack.length context] }).2.rem = 0) := by
        intro hcon
        have := g1.1
        omega
      rw [if_neg hrem1]
      have gfold : Grows CrawlOk
          (extenLoop s (stack ++ [context]) pfx c.extens 0
            { st with diags := st.diags ++ [Diag.crawl stack.length context] }).2
          ((c.includes.foldl
            (includeStep s pfx context (stack ++ [context])
              (fun p n stb => generate_rec f s p n (stack ++ [context]) stb))
            ((extenLoop s (stack ++ [context]) pfx c.extens 0
              { st with diags := st.diags ++ [Diag.crawl stack.length context] }).1,
             (extenLoop s (stack ++ [context]) pfx c.extens 0
              { st with diags := st.diags ++ [Diag.crawl stack.length context] }).2)).2) := by
        refine foldl_grows _ ?_ c.includes _ g1.1
        intro a x ha
        unfold includeStep
        by_cases hb1 : a.1 < 0
        · rw [if_pos hb1]; exact Grows.rfl ha
        · rw [if_neg hb1]
          by_cases hb2 : AST_PBX_MAX_STACK ≤ (stack ++ [context]).length
          · rw [if_pos hb2]
            exact grows_append_diags ha
              (by intro d hd; simp at hd; subst hd; intro n cx hc; cases hc)
          · rw [if_neg hb2]
            dsimp only
            by_cases hb3 : (parseInclude x).1 = ""
            · rw [if_pos hb3]
              exact grows_append_diags ha
                (by intro d hd; simp at hd; subst hd; intro n cx hc; cases hc)
            · rw [if_neg hb3]
              by_cases hb4 : (stack ++ [context]).any (fun y => strcaseeq y (parseInclude x).1)
              · rw [if_pos hb4]
                exact grows_append_diags ha
                  (by intro d hd; simp at hd; subst hd; intro n cx hc; cases hc)
              · rw [if_neg hb4]
                refine ih s _ _ (stack ++ [context]) a.2 ha ?_
                simp only [List.length_append, List.length_cons, List.length_nil] at hb2 ⊢
                omega
      exact Grows.trans g1 gfold

/-- Transfer of the invariant to generate_digit_map itself. -/
theorem generate_digit_map_grows (s : Store) (pfx : List Char) (context : String)
    (stack : List String) (st : GBuf) (h : 1 ≤ st.rem)
    (hs : stack.length < AST_PBX_MAX_STACK) :
    Grows CrawlOk st (generate_digit_map s pfx context stack st).2 := by
  rw [← generate_rec_eq (AST_PBX_MAX_STACK - stack.length + 1) s pfx context stack st
    (by omega)]
  exact generate_rec_grows _ s pfx context stack st h hs

/-! ### Closed forms for the character loop -/

theorem buf_append_eq_some {frag : List Char} {st : GBuf}
    (h : frag.length < st.rem) :
    buf_append frag st =
      some ⟨st.out ++ frag, st.rem - frag.length, st.diags⟩ := by
  unfold buf_append
  rw [if_neg (by omega)]

theorem buf_append_eq_none {frag : List Char} {st : GBuf}
    (h : st.rem ≤ frag.length) : buf_append frag st = none := by
  unfold buf_append
  rw [if_pos h]

theorem translatePattern_nil : translatePattern [] = [] := rfl

theorem translatePattern_cons (c : Char) (l : List Char) :
    translatePattern (c :: l) = transChar c ++ translatePattern l := by
  simp [translatePattern]

/-- A successful character step with no pending ignorepat: the translated
character is committed, the bracket bookkeeping advances, its diagnostics are
appended. -/
theorem charStep_noIg (ext : String) (pfx : List Char) (c : Char)
    (ps : PatState) (st : GBuf) (h : (transChar c).length < st.rem) :
    charStep ext pfx c false ps st =
      Sum.inr (false, (bookkeep ext c ps).1,
        ⟨st.out ++ transChar c, st.rem - (transChar c).length,
         st.diags ++ (bookkeep ext c ps).2⟩) := by
  unfold charStep
  rw [if_neg (by simp)]
  dsimp only
  rw [@buf_append_eq_some (transChar c) { st with diags := st.diags ++ (bookkeep ext c ps).2 } h]
  dsimp only
  rw [if_neg (by simp)]

/-- A failed character step with no pending ignorepat: when the translated
character does not fit, the step fails having only recorded the bookkeeping
diagnostics, without advancing the cursor. -/
theorem charStep_noIg_fail (ext : String) (pfx : List Char) (c : Char)
    (ps : PatState) (st : GBuf) (h : st.rem ≤ (transChar c).length) :
    charStep ext pfx c false ps st =
      Sum.inl ⟨st.out, st.rem, st.diags ++ (bookkeep ext c ps).2⟩ := by
  unfold charStep
  rw [if_neg (by simp)]
  dsimp only
  rw [@buf_append_eq_none (transChar c) { st with diags := st.diags ++ (bookkeep ext c ps).2 } h]

/-- Closed form of the character loop with no pending ignorepat and enough
capacity: it commits exactly the translated pattern and some non-crawl
diagnostics, consuming capacity equal to the translated length. -/
theorem charLoop_noIg (ext : String) (pfx : List Char) :
    ∀ (nm : List Char) (ps : PatState) (st : GBuf),
      (translatePattern nm).length < st.rem →
      ∃ ds, charLoop ext pfx nm false ps st =
        (false, ⟨st.out ++ translatePattern nm,
                 st.rem - (translatePattern nm).length, st.diags ++ ds⟩) := by
  intro nm
  induction nm with
  | nil =>
    intro ps st h
    refine ⟨[], ?_⟩
    simp [charLoop, translatePattern_nil]
  | cons c rest ih =>
    intro ps st h
    rw [translatePattern_cons] at h
    simp only [List.length_append] at h
    rw [charLoop, charStep_noIg ext pfx c ps st (by omega)]
    dsimp only
    obtain ⟨ds', hrec⟩ := ih (bookkeep ext c ps).1
      ⟨st.out ++ transChar c, st.rem - (transChar c).length,
       st.diags ++ (bookkeep ext c ps).2⟩ (by simp; omega)
    rw [hrec]
    refine ⟨(bookkeep ext c ps).2 ++ ds', ?_⟩
    simp [translatePattern_cons, List.append_assoc]
    omega

/-- When the (non-empty) remaining pattern's translation does not fit in the
remaining capacity, the character loop fails. -/
theorem charLoop_fail (ext : String) (pfx : List Char) :
    ∀ (nm : List Char) (ps : PatState) (st : GBuf), nm ≠ [] →
      st.rem ≤ (translatePattern nm).length →
      (charLoop ext pfx nm false ps st).1 = true := by
  intro nm
  induction nm with
  | nil => intro ps st hne; exact absurd rfl hne
  | cons c rest ih =>
    intro ps st _hne h
    rw [translatePattern_cons] at h
    simp only [List.length_append] at h
    by_cases hc : (transChar c).length < st.rem
    · rw [charLoop, charStep_noIg ext pfx c ps st hc]
      dsimp only
      have hrest : rest ≠ [] := by
        intro he
        subst he
        simp [translatePattern_nil] at h
        omega
      exact ih (bookkeep ext c ps).1 _ hrest (by simp; omega)
    · rw [charLoop, charStep_noIg_fail ext pfx c ps st (by omega)]

/-- res = -1 is sticky across the extension walk. -/
theorem extenLoop_neg (s : Store) (stack : List String) (pfx : List Char) :
    ∀ (l : List ast_exten) (st : GBuf),
      (extenLoop s stack pfx l (-1) st).1 = -1 := by
  intro l
  induction l with
  | nil => intro st; rfl
  | cons e rest ih =>
    intro st
    rw [extenLoop]
    cases hp : processExten s stack pfx e st with
    | mk oc st' =>
      cases oc with
      | brk => rfl
      | cont failed =>
        cases failed
        · exact ih st'
        · exact ih st'

/-- A successful character step with a pending ignorepat and a non-empty
prefix: the comma goes first (right after the already-committed prefix), then
the translated character; the pending flag is cleared. -/
theorem charStep_igPfxNe (ext : String) (pfx : List Char) (c : Char)
    (ps : PatState) (st : GBuf) (hpfx : pfx ≠ [])
    (h : 1 + (transChar c).length < st.rem) :
    charStep ext pfx c true ps st =
      Sum.inr (false, (bookkeep ext c ps).1,
        ⟨st.out ++ ',' :: transChar c, st.rem - (1 + (transChar c).length),
         st.diags ++ (bookkeep ext c ps).2⟩) := by
  unfold charStep
  rw [if_pos (by simp [hpfx])]
  rw [@buf_append_eq_some [','] st (by simp; omega)]
  dsimp only
  rw [buf_append_eq_some (by simp; omega)]
  dsimp only
  rw [if_neg (by simp)]
  simp [List.append_assoc]
  omega

/-- A successful character step with a pending ignorepat and an empty prefix:
the translated character goes first, then the comma; the flag is cleared. -/
theorem charStep_igEmpty (ext : String) (c : Char)
    (ps : PatState) (st : GBuf) (h : (transChar c).length + 1 < st.rem) :
    charStep ext [] c true ps st =
      Sum.inr (false, (bookkeep ext c ps).1,
        ⟨st.out ++ transChar c ++ [','], st.rem - ((transChar c).length + 1),
         st.diags ++ (bookkeep ext c ps).2⟩) := by
  unfold charStep
  rw [if_neg (by simp)]
  dsimp only
  rw [@buf_append_eq_some (transChar c)
    { st with diags := st.diags ++ (bookkeep ext c ps).2 } (by simp; omega)]
  dsimp only
  rw [if_pos (by simp)]
  rw [buf_append_eq_some (by simp; omega)]
  simp
  omega

/-- Closed form of the character loop on a non-empty pattern with a pending
ignorepat and a non-empty prefix: exactly one comma is inserted, before the
whole translated pattern. -/
theorem charLoop_igPfxNe (ext : String) (pfx : List Char) (c : Char)
    (rest : List Char) (ps : PatState) (st : GBuf) (hpfx : pfx ≠ [])
    (h : 1 + (translatePattern (c :: rest)).length < st.rem) :
    ∃ ds, charLoop ext pfx (c :: rest) true ps st =
      (false, ⟨st.out ++ ',' :: translatePattern (c :: rest),
               st.rem - (1 + (translatePattern (c :: rest)).length),
               st.diags ++ ds⟩) := by
  rw [translatePattern_cons] at h ⊢
  simp only [List.length_append] at h
  rw [charLoop, charStep_igPfxNe ext pfx c ps st hpfx (by omega)]
  dsimp only
  obtain ⟨ds', hrec⟩ := charLoop_noIg ext pfx rest (bookkeep ext c ps).1
    ⟨st.out ++ ',' :: transChar c, st.rem - (1 + (transChar c).length),
     st.diags ++ (bookkeep ext c ps).2⟩ (by simp; omega)
  rw [hrec]
  refine ⟨(bookkeep ext c ps).2 ++ ds', ?_⟩
  simp [List.append_assoc]
  omega

/-- Closed form of the character loop on a non-empty pattern with a pending
ignorepat and an empty prefix: exactly one comma is inserted, right after the
translation of the first character. -/
theorem charLoop_igEmpty (ext : String) (c : Char)
    (rest : List Char) (ps : PatState) (st : GBuf)
    (h : (transChar c).length + 1 + (translatePattern rest).length < st.rem) :
    ∃ ds, charLoop ext [] (c :: rest) true ps st =
      (false, ⟨st.out ++ transChar c ++ ',' :: translatePattern rest,
               st.rem - ((transChar c).length + 1 + (translatePattern rest).length),
               st.diags ++ ds⟩) := by
  rw [charLoop, charStep_igEmpty ext c ps st (by omega)]
  dsimp only
  obtain ⟨ds', hrec⟩ := charLoop_noIg ext [] rest (bookkeep ext c ps).1
    ⟨st.out ++ transChar c ++ [','], st.rem - ((transChar c).length + 1),
     st.diags ++ (bookkeep ext c ps).2⟩ (by simp; omega)
  rw [hrec]
  refine ⟨(bookkeep ext c ps).2 ++ ds', ?_⟩
  simp [List.append_assoc]
  omega

/-! ### Closed forms for the extension walk -/

/-- An extension entry that is kept (not reserved, priority 1) and fits
reduces to the separator, the prefix and the character loop. -/
theorem processExten_unfold (s : Store) (stack : List String) (pfx : List Char)
    (e : ast_exten) (st : GBuf)
    (hres : ¬(e.name = "a" ∨ e.name = "i" ∨ e.name = "s" ∨ e.name = "t"))
    (hpri : e.priority = 1) (hcap : 1 + pfx.length < st.rem) :
    processExten s stack pfx e st =
      ((ExtOutcome.cont (charLoop e.name pfx (stripSentinel e.name)
          (stack.any (fun cn => s.ignorepat cn (firstDialed pfx (stripSentinel e.name))))
          ⟨0, 0, 0⟩
          ⟨st.out ++ '|' :: pfx, st.rem - (1 + pfx.length), st.diags⟩).1),
       (charLoop e.name pfx (stripSentinel e.name)
          (stack.any (fun cn => s.ignorepat cn (firstDialed pfx (stripSentinel e.name))))
          ⟨0, 0, 0⟩
          ⟨st.out ++ '|' :: pfx, st.rem - (1 + pfx.length), st.diags⟩).2) := by
  unfold processExten
  rw [if_neg hres, if_neg (by omega)]
  dsimp only
  rw [@buf_append_eq_some ['|'] st (by simp; omega)]
  dsimp only
  rw [buf_append_eq_some (by simp; omega)]
  dsimp only
  rw [show (st.out ++ ['|']) ++ pfx = st.out ++ '|' :: pfx by simp]
  simp only [List.length_singleton]
  rw [show st.rem - 1 - pfx.length = st.rem - (1 + pfx.length) from by omega]
  rfl

/-- Closed form of one kept extension with no ignorepat match: it emits the
separator, the prefix and the translated pattern. -/
theorem processExten_noIg (s : Store) (stack : List String) (pfx : List Char)
    (e : ast_exten) (st : GBuf)
    (hres : ¬(e.name = "a" ∨ e.name = "i" ∨ e.name = "s" ∨ e.name = "t"))
    (hpri : e.priority = 1)
    (hig : stack.any (fun cn => s.ignorepat cn (firstDialed pfx (stripSentinel e.name))) = false)
    (hcap : 1 + pfx.length + (translatePattern (stripSentinel e.name)).length < st.rem) :
    ∃ ds, processExten s stack pfx e st =
      (ExtOutcome.cont false,
       ⟨st.out ++ '|' :: (pfx ++ translatePattern (stripSentinel e.name)),
        st.rem - (1 + pfx.length + (translatePattern (stripSentinel e.name)).length),
        st.diags ++ ds⟩) := by
  rw [processExten_unfold s stack pfx e st hres hpri (by omega), hig]
  obtain ⟨ds, hcl⟩ := charLoop_noIg e.name pfx (stripSentinel e.name) ⟨0, 0, 0⟩
    ⟨st.out ++ '|' :: pfx, st.rem - (1 + pfx.length), st.diags⟩ (by simp; omega)
  rw [hcl]
  refine ⟨ds, ?_⟩
  simp [List.append_assoc]
  omega

/-- A skipped extension entry (reserved name, or priority other than 1)
leaves the state untouched. -/
theorem processExten_skip (s : Store) (stack : List String) (pfx : List Char)
    (e : ast_exten) (st : GBuf)
    (h : (e.name = "a" ∨ e.name = "i" ∨ e.name = "s" ∨ e.name = "t") ∨ e.priority ≠ 1) :
    processExten s stack pfx e st = (ExtOutcome.cont false, st) := by
  unfold processExten
  by_cases h1 : e.name = "a" ∨ e.name = "i" ∨ e.name = "s" ∨ e.name = "t"
  · rw [if_pos h1]
  · rw [if_neg h1, if_pos (by tauto)]

theorem keptP_iff (e : ast_exten) :
    keptP e = true ↔ (e.priority = 1 ∧
      ¬(e.name = "a" ∨ e.name = "i" ∨ e.name = "s" ∨ e.name = "t")) := by
  simp [keptP]
  tauto

theorem rawEmit_cons_pos {e : ast_exten} {l : List ast_exten} (hk : keptP e = true) :
    rawEmit (e :: l) = '|' :: (translatePattern (stripSentinel e.name) ++ rawEmit l) := by
  simp [rawEmit, keptExtens, List.filter_cons, hk]

theorem rawEmit_cons_neg {e : ast_exten} {l : List ast_exten} (hk : ¬ keptP e = true) :
    rawEmit (e :: l) = rawEmit l := by
  simp only [Bool.not_eq_true] at hk
  simp [rawEmit, keptExtens, List.filter_cons, hk]

/-- Closed form of the extension walk with an empty prefix and an inactive
ignore predicate: it commits exactly rawEmit and some non-crawl diagnostics. -/
theorem extenLoop_closed (s : Store) (stack : List String)
    (hig : ∀ cn ch, s.ignorepat cn ch = false) :
    ∀ (l : List ast_exten) (st : GBuf), (rawEmit l).length < st.rem →
      ∃ ds, extenLoop s stack [] l 0 st =
        (0, ⟨st.out ++ rawEmit l, st.rem - (rawEmit l).length, st.diags ++ ds⟩) := by
  intro l
  induction l with
  | nil =>
    intro st h
    refine ⟨[], ?_⟩
    simp [extenLoop, rawEmit, keptExtens]
  | cons e rest ih =>
    intro st h
    rw [extenLoop]
    by_cases hk : keptP e = true
    · obtain ⟨hpri, hres⟩ := (keptP_iff e).1 hk
      rw [rawEmit_cons_pos hk] at h
      simp only [List.length_cons, List.length_append] at h
      obtain ⟨ds1, hpe⟩ := processExten_noIg s stack [] e st hres hpri
        (by simp [hig]) (by simp; omega)
      rw [hpe]
      dsimp only
      simp only [Bool.false_eq_true, ite_false]
      obtain ⟨ds2, hrec⟩ := ih
        ⟨st.out ++ '|' :: ([] ++ translatePattern (stripSentinel e.name)),
         st.rem - (1 + [].length + (translatePattern (stripSentinel e.name)).length),
         st.diags ++ ds1⟩ (by simp; omega)
      rw [hrec]
      refine ⟨ds1 ++ ds2, ?_⟩
      simp [rawEmit_cons_pos hk, List.append_assoc]
      omega
    · rw [processExten_skip s stack [] e st
        (by rcases (not_and_or.1 (fun hcon => hk ((keptP_iff e).2 ⟨hcon.1, hcon.2⟩))) with h1 | h1
            · exact Or.inr h1
            · exact Or.inl (not_not.1 h1))]
      dsimp only
      rw [rawEmit_cons_neg hk] at h ⊢
      exact ih st h

theorem flatten_bar_drop :
    ∀ (parts : List (List Char)), parts ≠ [] →
      ((parts.map (fun p => '|' :: p)).flatten).drop 1 = joinBar parts := by
  intro parts
  induction parts with
  | nil => intro h; exact absurd rfl h
  | cons p rest ih =>
    intro _
    cases rest with
    | nil => simp [joinBar]
    | cons q rest' =>
      have hr := ih (by simp)
      simp only [List.map_cons, List.flatten_cons, List.cons_append, List.drop_succ_cons,
        List.drop_zero] at hr ⊢
      rw [joinBar]
      rw [← hr]

/-- rawEmit with its leading separator stripped is the spec-side join. -/
theorem rawEmit_drop (l : List ast_exten) (h : keptExtens l ≠ []) :
    (rawEmit l).drop 1 =
      joinBar ((keptExtens l).map (fun e => translatePattern (stripSentinel e.name))) := by
  have := flatten_bar_drop
    ((keptExtens l).map (fun e => translatePattern (stripSentinel e.name)))
    (by simpa using h)
  rw [← this, rawEmit, List.map_map]
  rfl

/-! ### The include walk -/

theorem includeStep_skip {s : Store} {pfx : List Char} {context : String}
    {stack' : List String} {G : List Char → String → GBuf → Int × GBuf}
    {a : Int × GBuf} (i : String) (h : a.1 < 0) :
    includeStep s pfx context stack' G a i = a := by
  unfold includeStep
  rw [if_pos h]

theorem includeStep_dupe {s : Store} {pfx : List Char} {context : String}
    {stack' : List String} {G : List Char → String → GBuf → Int × GBuf}
    {a : Int × GBuf} (i : String) (h : ¬ a.1 < 0)
    (hdep : ¬ AST_PBX_MAX_STACK ≤ stack'.length)
    (hne : ¬ (parseInclude i).1 = "")
    (hdupe : stack'.any (fun x => strcaseeq x (parseInclude i).1) = true) :
    includeStep s pfx context stack' G a i =
      (a.1, { a.2 with diags := a.2.diags ++ [Diag.circularInclude i context] }) := by
  unfold includeStep
  rw [if_neg h, if_neg hdep]
  dsimp only
  rw [if_neg hne, if_pos hdupe]

theorem includeStep_rec {s : Store} {pfx : List Char} {context : String}
    {stack' : List String} {G : List Char → String → GBuf → Int × GBuf}
    {a : Int × GBuf} (i : String) (h : ¬ a.1 < 0)
    (hdep : ¬ AST_PBX_MAX_STACK ≤ stack'.length)
    (hne : ¬ (parseInclude i).1 = "")
    (hdupe : ¬ stack'.any (fun x => strcaseeq x (parseInclude i).1) = true) :
    includeStep s pfx context stack' G a i =
      G ((pfx ++ (parseInclude i).2).take 31) (parseInclude i).1 a.2 := by
  unfold includeStep
  rw [if_neg h, if_neg hdep]
  dsimp only
  rw [if_neg hne, if_neg hdupe]

/-- Once res is negative the include walk does nothing more (the source's
loop condition plus the break after a failed recursive call). -/
theorem includeStep_foldl_skip {s : Store} {pfx : List Char} {context : String}
    {stack' : List String} {G : List Char → String → GBuf → Int × GBuf} :
    ∀ (l : List String) (a : Int × GBuf), a.1 < 0 →
      l.foldl (includeStep s pfx context stack' G) a = a := by
  intro l
  induction l with
  | nil => intro a _; rfl
  | cons i rest ih =>
    intro a h
    rw [List.foldl_cons, includeStep_skip i h]
    exact ih a h

/-- When every include entry on the list parses to a name already on the
stack (case-insensitively), the walk emits exactly one CircularInclude
diagnostic per entry and never recurses: res, output and capacity are
untouched. -/
theorem includeStep_foldl_dupes {s : Store} {pfx : List Char} {context : String}
    {stack' : List String} {G : List Char → String → GBuf → Int × GBuf}
    (hdep : ¬ AST_PBX_MAX_STACK ≤ stack'.length) :
    ∀ (l : List String) (res : Int) (st : GBuf), ¬ res < 0 →
      (∀ i ∈ l, ¬ (parseInclude i).1 = "" ∧
        stack'.any (fun x => strcaseeq x (parseInclude i).1) = true) →
      l.foldl (includeStep s pfx context stack' G) (res, st) =
        (res, { st with diags := st.diags ++ l.map (fun i => Diag.circularInclude i context) }) := by
  intro l
  induction l with
  | nil => intro res st _ _; simp
  | cons i rest ih =>
    intro res st hres hall
    rw [List.foldl_cons, includeStep_dupe i hres hdep (hall i (by simp)).1 (hall i (by simp)).2]
    rw [ih res _ hres (fun j hj => hall j (by simp [hj]))]
    simp [List.append_assoc]

/-! ### Include entry parsing -/

theorem strchrSplit_none {ch : Char} : ∀ {l : List Char}, ch ∉ l →
    strchrSplit ch l = none := by
  intro l
  induction l with
  | nil => intro _; rfl
  | cons c rest ih =>
    intro h
    rw [strchrSplit]
    rw [if_neg (by intro he; exact h (by simp [he]))]
    rw [ih (by intro hm; exact h (by simp [hm]))]

/-- An include entry with no bar and no comma parses to itself with an empty
sub-prefix. -/
theorem parseInclude_plain (raw : String) (h1 : '|' ∉ raw.toList)
    (h2 : ',' ∉ raw.toList) : parseInclude raw = (raw, []) := by
  unfold parseInclude
  dsimp only
  rw [strchrSplit_none h1]
  dsimp only
  rw [strchrSplit_none h2]
  rfl

theorem ne_of_strcaseeq_false {a b : String} (h : strcaseeq a b = false) :
    a ≠ b := by
  intro he
  subst he
  simp [strcaseeq] at h

/-! ### Unfolding generate_digit_map one level -/

theorem generate_digit_map_none {s : Store} {pfx : List Char} {context : String}
    {stack : List String} {st : GBuf}
    (hfind : ast_context_find s context = none) :
    generate_digit_map s pfx context stack st =
      (-1, { st with diags := st.diags ++ [Diag.contextNotFound context] }) := by
  rw [generate_digit_map_eq_body]
  unfold genBody
  rw [hfind]

theorem generate_digit_map_some {s : Store} {pfx : List Char} {context : String}
    {stack : List String} {st : GBuf} {c : ast_context}
    (hfind : ast_context_find s context = some c) :
    generate_digit_map s pfx context stack st =
      (let r1 := extenLoop s (stack ++ [context]) pfx c.extens 0
          { st with diags := st.diags ++ [Diag.crawl stack.length context] }
       let st1 : GBuf :=
         if r1.1 ≠ 0 ∧ r1.2.rem = 0
         then { r1.2 with diags := r1.2.diags ++ [Diag.bufferExhausted] } else r1.2
       let r2 := (c.includes).foldl
         (includeStep s pfx context (stack ++ [context])
           (fun p n stb => generate_digit_map s p n (stack ++ [context]) stb)) (r1.1, st1)
       (if r2.1 < 0 then r2.1 else ((r2.2.out.length - st.out.length : Int)), r2.2)) := by
  rw [generate_digit_map_eq_body]
  unfold genBody
  rw [hfind]

/-! ### Evaluation of concrete runs through the structural mirror -/

theorem generate_digit_map_all_eval (s : Store) (context : String) :
    generate_digit_map_all s context =
      (let r := generate_rec (AST_PBX_MAX_STACK + 1) s [] context [] ⟨[], BUF_SIZE, []⟩
       if r.1 ≤ 0 then (r.1, none, r.2.diags)
       else (0, some (r.2.out.drop 1), r.2.diags)) := by
  unfold generate_digit_map_all
  rw [generate_rec_eq (AST_PBX_MAX_STACK + 1) s [] context [] ⟨[], BUF_SIZE, []⟩ (by decide)]

/-- A found context with no extensions reduces to its include walk. -/
theorem generate_digit_map_noext {s : Store} {pfx : List Char} {context : String}
    {stack : List String} {st : GBuf} {c : ast_context}
    (hfind : ast_context_find s context = some c) (hext : c.extens = []) :
    generate_digit_map s pfx context stack st =
      (let r2 := c.includes.foldl
        (includeStep s pfx context (stack ++ [context])
          (fun p n stb => generate_digit_map s p n (stack ++ [context]) stb))
        (0, { st with diags := st.diags ++ [Diag.crawl stack.length context] })
       (if r2.1 < 0 then r2.1 else ((r2.2.out.length - st.out.length : Int)), r2.2)) := by
  rw [generate_digit_map_some hfind, hext]
  simp only [extenLoop]
  rw [if_neg (show ¬((0 : Int) ≠ 0 ∧ st.rem = 0) from by simp)]

/-- Full closed form of the character loop with no pending ignorepat: same as
charLoop_noIg but with the exact diagnostic trace. -/
theorem charLoop_noIg_full (ext : String) (pfx : List Char) :
    ∀ (nm : List Char) (ps : PatState) (st : GBuf),
      (translatePattern nm).length < st.rem →
      charLoop ext pfx nm false ps st =
        (false, ⟨st.out ++ translatePattern nm,
                 st.rem - (translatePattern nm).length,
                 st.diags ++ bookkeepRun ext nm ps⟩) := by
  intro nm
  induction nm with
  | nil =>
    intro ps st h
    simp [charLoop, translatePattern_nil, bookkeepRun]
  | cons c rest ih =>
    intro ps st h
    rw [translatePattern_cons] at h
    simp only [List.length_append] at h
    rw [charLoop, charStep_noIg ext pfx c ps st (by omega)]
    dsimp only
    rw [ih (bookkeep ext c ps).1
      ⟨st.out ++ transChar c, st.rem - (transChar c).length,
       st.diags ++ (bookkeep ext c ps).2⟩ (by simp; omega)]
    rw [translatePattern_cons, bookkeepRun]
    simp [List.append_assoc]
    omega

/-- The bookkeeping of an ordinary character outside any bracket. -/
theorem bookkeep_plain (ext : String) (c : Char)
    (h1 : ¬(c = 'N' ∨ c = 'Z' ∨ c = 'X' ∨ c = '!')) (h2 : ¬ c = '[')
    (h3 : ¬ c = ']') :
    bookkeep ext c ⟨0, 0, 0⟩ = (⟨0, 0, 0⟩, []) := by
  unfold bookkeep
  rw [if_neg h1, if_neg h2, if_neg h3, if_neg (by decide)]

/-- Opening a bracket from outside resets the item counters. -/
theorem bookkeep_open (ext : String) :
    bookkeep ext '[' ⟨0, 0, 0⟩ = (⟨1, 0, 0⟩, []) := by
  unfold bookkeep
  rw [if_neg (by decide), if_pos (by decide)]
  norm_num

/-- A bare item character inside a bracket increments the item counter. -/
theorem bookkeep_item (ext : String) (c : Char) (ps : PatState)
    (h1 : ¬(c = 'N' ∨ c = 'Z' ∨ c = 'X' ∨ c = '!')) (h2 : ¬ c = '[')
    (h3 : ¬ c = ']') (h4 : ¬ c = '.') (h5 : ¬ c = '-')
    (hip : ps.in_pattern ≠ 0) :
    bookkeep ext c ps =
      (⟨ps.in_pattern, ps.current_pattern_items + 1, ps.contains_range⟩, []) := by
  unfold bookkeep
  rw [if_neg h1, if_neg h2, if_neg h3, if_pos hip, if_neg h4, if_neg h5]

/-- The range dash inside a bracket: one item less, one range more. -/
theorem bookkeep_dash (ext : String) (ps : PatState) (hip : ps.in_pattern ≠ 0) :
    bookkeep ext '-' ps =
      (⟨ps.in_pattern, ps.current_pattern_items - 1, ps.contains_range + 1⟩, []) := by
  unfold bookkeep
  rw [if_neg (by decide), if_neg (by decide), if_neg (by decide), if_pos hip,
    if_neg (by decide), if_pos (by decide)]

/-- Closing a balanced bracket that recorded a range and more than one item
emits the digit/range combination warning (line 162). -/
theorem bookkeep_close_combo (ext : String) (ps : PatState)
    (hip : ps.in_pattern = 1) (hrange : ps.contains_range ≠ 0)
    (hitems : 1 < ps.current_pattern_items) :
    bookkeep ext ']' ps = (⟨0, 0, 0⟩, [Diag.malformedCombo ext]) := by
  unfold bookkeep
  rw [if_neg (by decide), if_neg (by decide), if_pos (by decide)]
  simp [hip, hrange, hitems]

/-- A decimal digit is none of the special pattern characters, and translates
to itself. -/
theorem digit_facts {c : Char} (h : c.isDigit = true) :
    ¬(c = 'N' ∨ c = 'Z' ∨ c = 'X' ∨ c = '!') ∧ ¬ c = '[' ∧ ¬ c = ']' ∧
      ¬ c = '.' ∧ ¬ c = '-' ∧ transChar c = [c] := by
  have hne : ∀ x : Char, x.isDigit = false → ¬ c = x := by
    intro x hx he
    subst he
    rw [h] at hx
    cases hx
  refine ⟨?_, hne '[' (by decide), hne ']' (by decide), hne '.' (by decide),
    hne '-' (by decide), ?_⟩
  · rintro (he | he | he | he) <;>
      [exact hne 'N' (by decide) he; exact hne 'Z' (by decide) he;
       exact hne 'X' (by decide) he; exact hne '!' (by decide) he]
  · unfold transChar
    rw [if_neg (hne 'N' (by decide)), if_neg (hne 'Z' (by decide)),
      if_neg (hne 'X' (by decide)), if_neg (hne '!' (by decide))]

/-- The truncation-warning conditional never fires when res is zero. -/
theorem st1_skip (st' f : GBuf) :
    (if ((0 : Int) ≠ 0 ∧ st'.rem = 0) then f else st') = st' := by simp

theorem ite_zlt {α : Sort _} (a b : α) : (if ((0 : Int) < 0) then a else b) = b := by
  norm_num

/-- Closed form of a whole single-extension, no-include, no-ignorepat
generation, with the exact diagnostic trace. -/
theorem generate_single_noIg (nm : String)
    (hres : ¬(nm = "a" ∨ nm = "i" ∨ nm = "s" ∨ nm = "t"))
    (hL : (translatePattern (stripSentinel nm)).length + 1 < BUF_SIZE) :
    generate_digit_map (storeSingle [⟨nm, 1⟩]) [] "A" [] ⟨[], BUF_SIZE, []⟩ =
      ((1 + (translatePattern (stripSentinel nm)).length : Int),
       ⟨'|' :: translatePattern (stripSentinel nm),
        BUF_SIZE - (1 + (translatePattern (stripSentinel nm)).length),
        Diag.crawl 0 "A" :: bookkeepRun nm (stripSentinel nm) ⟨0, 0, 0⟩⟩) := by
  have hfind : ast_context_find (storeSingle [⟨nm, 1⟩]) "A" =
      some ⟨"A", [⟨nm, 1⟩], []⟩ := rfl
  rw [generate_digit_map_some hfind]
  dsimp only
  simp only [List.nil_append, List.length_nil]
  rw [extenLoop]
  rw [processExten_unfold (storeSingle [⟨nm, 1⟩]) ["A"] [] ⟨nm, 1⟩
    ⟨[], BUF_SIZE, [Diag.crawl 0 "A"]⟩ hres rfl (by simp [BUF_SIZE])]
  rw [show (["A"].any fun cn => (storeSingle [⟨nm, 1⟩]).ignorepat cn
      (firstDialed [] (stripSentinel (⟨nm, 1⟩ : ast_exten).name))) = false from by
    simp [storeSingle]]
  rw [charLoop_noIg_full nm [] (stripSentinel (⟨nm, 1⟩ : ast_exten).name) ⟨0, 0, 0⟩
    ⟨[] ++ '|' :: [], BUF_SIZE - (1 + [].length), [Diag.crawl 0 "A"]⟩
    (by simp; omega)]
  dsimp only
  rw [extenLoop]
  simp only [Bool.false_eq_true, if_false, List.foldl_nil]
  simp only [st1_skip, ite_zlt]
  simp
  omega

/-! ### The claims -/

/-- C5: on the scenario store (context A: priority-1 extension _1XXX and an
include of B with sub-prefix 9; B: priority-1 extension _NXX; no ignore
pattern active), generateAll of A prints exactly 1xxx|9[2-9]xx — a context's
own extensions come before its includes, and each include's own extensions
before that include's nested includes. -/
theorem c5_scenario_order :
    generate_digit_map_all storeC5 "A" =
      (0, some ("1xxx|9[2-9]xx".toList), [Diag.crawl 0 "A", Diag.crawl 1 "B"]) := by
  rw [generate_digit_map_all_eval]
  decide

/-- C8: the translations of N (to the 2-9 class) and Z (to the 1-9 class) are
idempotent under re-translation: no pattern's translated output contains any
further N or Z token, and re-translating the produced output leaves it
unchanged. -/
theorem c8_translate_idempotent :
    ∀ nm : List Char, ('N' ∉ translatePattern nm ∧ 'Z' ∉ translatePattern nm) ∧
      translatePattern (translatePattern nm) = translatePattern nm := by
  have hchar : ∀ c : Char, ('N' ∉ transChar c ∧ 'Z' ∉ transChar c) ∧
      translatePattern (transChar c) = transChar c := by
    intro c
    by_cases h1 : c = 'N'
    · subst h1; exact ⟨by decide, by decide⟩
    · by_cases h2 : c = 'Z'
      · subst h2; exact ⟨by decide, by decide⟩
      · by_cases h3 : c = 'X'
        · subst h3; exact ⟨by decide, by decide⟩
        · by_cases h4 : c = '!'
          · subst h4; exact ⟨by decide, by decide⟩
          · have he : transChar c = [c] := by
              unfold transChar
              rw [if_neg h1, if_neg h2, if_neg h3, if_neg h4]
            rw [he]
            refine ⟨⟨?_, ?_⟩, ?_⟩
            · simp
              exact fun hc => h1 hc.symm
            · simp
              exact fun hc => h2 hc.symm
            · rw [show translatePattern [c] = transChar c ++ [] from rfl, he]
              simp
  intro nm
  induction nm with
  | nil => exact ⟨⟨by simp [translatePattern], by simp [translatePattern]⟩, rfl⟩
  | cons c rest ih =>
    rw [translatePattern_cons]
    refine ⟨⟨?_, ?_⟩, ?_⟩
    · simp only [List.mem_append]
      rintro (h | h)
      · exact (hchar c).1.1 h
      · exact ih.1.1 h
    · simp only [List.mem_append]
      rintro (h | h)
      · exact (hchar c).1.2 h
      · exact ih.1.2 h
    · rw [show translatePattern (transChar c ++ translatePattern rest)
            = translatePattern (transChar c) ++ translatePattern (translatePattern rest) from
          by simp [translatePattern]]
      rw [(hchar c).2, ih.2]

/-- C2: a circular include is cut off before recursing: whenever every
include entry of the current context parses to a name already on the include
stack (case-insensitively), the call runs exactly its own extension walk,
appends one CircularInclude diagnostic per include entry, and emits nothing
further — the repeated context's extensions are not emitted a second time and
no recursion happens (generation being a total function, it terminates on
every routing configuration). -/
theorem c2_circular_include (s : Store) (pfx : List Char) (context : String)
    (stack : List String) (st : GBuf) (c : ast_context)
    (hfind : ast_context_find s context = some c)
    (hrem : 1 ≤ st.rem)
    (hdep : ¬ AST_PBX_MAX_STACK ≤ (stack ++ [context]).length)
    (hdupe : ∀ i ∈ c.includes, ¬ (parseInclude i).1 = "" ∧
      (stack ++ [context]).any (fun x => strcaseeq x (parseInclude i).1) = true) :
    generate_digit_map s pfx context stack st =
      (let r1 := extenLoop s (stack ++ [context]) pfx c.extens 0
          { st with diags := st.diags ++ [Diag.crawl stack.length context] }
       if r1.1 < 0 then (r1.1, r1.2)
       else ((r1.2.out.length - st.out.length : Int),
         { r1.2 with diags := r1.2.diags ++
             c.includes.map (fun i => Diag.circularInclude i context) })) := by
  rw [generate_digit_map_some hfind]
  have hg := extenLoop_grows s (stack ++ [context]) pfx c.extens 0
    { st with diags := st.diags ++ [Diag.crawl stack.length context] } (by simp [hrem])
  cases hr1 : extenLoop s (stack ++ [context]) pfx c.extens 0
      { st with diags := st.diags ++ [Diag.crawl stack.length context] } with
  | mk res stM =>
    rw [hr1] at hg
    dsimp only at hg
    dsimp only
    have hrm : 1 ≤ stM.rem := hg.1
    rw [if_neg (show ¬(res ≠ 0 ∧ stM.rem = 0) from by omega)]
    by_cases hres : res < 0
    · rw [includeStep_foldl_skip c.includes (res, stM) hres]
      dsimp only
      simp only [if_pos hres]
    · rw [includeStep_foldl_dupes hdep c.includes res stM hres hdupe]
      dsimp only
      simp only [if_neg hres]

/-- Witness for C2: a direct self-include is skipped with a CircularInclude
diagnostic (at a concrete input), and on the A-B-A chain the repeated A is
rejected at its second occurrence without re-emitting A's extensions. -/
theorem c2_witness :
    generate_digit_map storeSelf [] "A" [] ⟨[], 2048, []⟩ =
      (2, ⟨"|1".toList, 2046, [Diag.crawl 0 "A", Diag.circularInclude "A" "A"]⟩) ∧
    generate_digit_map_all storeCycle "A" =
      (0, some ("1|2".toList),
       [Diag.crawl 0 "A", Diag.crawl 1 "B", Diag.circularInclude "A" "B"]) := by
  constructor
  · have h := c2_circular_include storeSelf [] "A" [] ⟨[], 2048, []⟩
      ⟨"A", [⟨"_1", 1⟩], ["A"]⟩ (by decide) (by decide) (by decide) (by decide)
    rw [h]
    decide
  · rw [generate_digit_map_all_eval]
    decide

/-- C1 counterexample: in storeDangling, context A includes the unresolvable
context B and then the perfectly valid context C; the claim says the dangling
include is non-fatal, the branch is skipped, the sibling C is still processed
and the call succeeds — but the whole call fails with res -1, produces no
output, and C is never crawled. -/
theorem c1_counterexample :
    generate_digit_map_all storeDangling "A" =
      (-1, none, [Diag.crawl 0 "A", Diag.contextNotFound "B"]) := by
  rw [generate_digit_map_all_eval]
  decide

/-- C1 (amended): a nested include of an unresolvable context is fatal, not
merely diagnostic: the failed recursive lookup records ContextNotFound, the
caller stops before any remaining sibling include, and the whole generateAll
call fails with res -1 and no output — exactly as for a missing root. -/
theorem c1_dangling_include_fatal (bname : String) (rest : List String)
    (h1 : '|' ∉ bname.toList) (h2 : ',' ∉ bname.toList) (h3 : ¬ bname = "")
    (h4 : strcaseeq "A" bname = false) :
    generate_digit_map_all (storeMissing bname rest) "A" =
      (-1, none, [Diag.crawl 0 "A", Diag.contextNotFound bname]) := by
  have hfind : ast_context_find (storeMissing bname rest) "A" =
      some ⟨"A", [], bname :: rest⟩ := rfl
  have hnone : ast_context_find (storeMissing bname rest) bname = none := by
    have hne : "A" ≠ bname := ne_of_strcaseeq_false h4
    unfold ast_context_find storeMissing
    dsimp only
    rw [List.find?_cons_of_neg _ (by simpa using hne), List.find?_nil]
  have hgen : generate_digit_map (storeMissing bname rest) [] "A" [] ⟨[], BUF_SIZE, []⟩ =
      (-1, ⟨[], BUF_SIZE, [Diag.crawl 0 "A", Diag.contextNotFound bname]⟩) := by
    rw [generate_digit_map_noext hfind rfl]
    dsimp only
    rw [List.foldl_cons]
    rw [includeStep_rec bname (by norm_num) (by decide)
      (by rw [parseInclude_plain bname h1 h2]; exact h3)
      (by rw [parseInclude_plain bname h1 h2]; simp [h4])]
    rw [parseInclude_plain bname h1 h2]
    dsimp only
    rw [generate_digit_map_none hnone]
    rw [includeStep_foldl_skip rest _ (by norm_num)]
    dsimp only
    rw [if_pos (show ((-1 : Int) < 0) from by norm_num)]
    simp
  unfold generate_digit_map_all
  rw [hgen]
  rw [if_pos (show ((-1 : Int) ≤ 0) from by norm_num)]

/-- Witness for C1's amended theorem at the concrete input bname B with the
valid sibling C still pending. -/
theorem c1_witness :
    ('|' ∉ "B".toList ∧ ',' ∉ "B".toList ∧ ¬ "B" = "" ∧ strcaseeq "A" "B" = false) ∧
    generate_digit_map_all (storeMissing "B" ["C"]) "A" =
      (-1, none, [Diag.crawl 0 "A", Diag.contextNotFound "B"]) :=
  ⟨⟨by decide, by decide, by decide, by decide⟩,
   c1_dangling_include_fatal "B" ["C"] (by decide) (by decide) (by decide) (by decide)⟩

/-- C4 counterexample: on the single-context store whose only extension is
the priority-1 entry named _a, the generated digit map is the single
character a, while the claim's sentinel-stripped filter would have excluded
the entry (its stripped name a is reserved) and so predicts the empty join;
the source checks the reserved names against the RAW name, before stripping. -/
theorem c4_counterexample :
    generate_digit_map_all (storeSingle [⟨"_a", 1⟩]) "A" =
      (0, some ['a'], [Diag.crawl 0 "A"]) ∧
    specStrippedJoin ⟨"A", [⟨"_a", 1⟩], []⟩ = [] ∧
    some ['a'] ≠ some ([] : List Char) := by
  refine ⟨?_, by decide, by decide⟩
  rw [generate_digit_map_all_eval]
  decide

/-- C4 (amended): for every single-context store with no includes, an
inactive ignore predicate and a fitting expansion, the generated digit map is
exactly the bar-joined translated patterns of the priority-1 entries whose
RAW (unstripped) name is not reserved, in store order, with no leading
separator. -/
theorem c4_single_context_join (s : Store) (context : String) (c : ast_context)
    (hfind : ast_context_find s context = some c)
    (hinc : c.includes = [])
    (hig : ∀ cn ch, s.ignorepat cn ch = false)
    (hkept : ¬ keptExtens c.extens = [])
    (hcap : (rawEmit c.extens).length < BUF_SIZE) :
    (generate_digit_map_all s context).1 = 0 ∧
    (generate_digit_map_all s context).2.1 =
      some (joinBar ((keptExtens c.extens).map
        (fun e => translatePattern (stripSentinel e.name)))) := by
  have hlen : 1 ≤ (rawEmit c.extens).length := by
    cases hke : keptExtens c.extens with
    | nil => exact absurd hke hkept
    | cons e l' => simp [rawEmit, hke]
  obtain ⟨ds, hext⟩ := extenLoop_closed s [context] hig c.extens
    ⟨[], BUF_SIZE, [Diag.crawl 0 context]⟩ (by simpa using hcap)
  have hgen : generate_digit_map s [] context [] ⟨[], BUF_SIZE, []⟩ =
      (((rawEmit c.extens).length : Int),
       ⟨rawEmit c.extens, BUF_SIZE - (rawEmit c.extens).length,
        Diag.crawl 0 context :: ds⟩) := by
    rw [generate_digit_map_some hfind]
    dsimp only
    simp only [List.nil_append, List.length_nil]
    rw [hext]
    dsimp only
    rw [if_neg (show ¬((0 : Int) ≠ 0 ∧ BUF_SIZE - (rawEmit c.extens).length = 0) from by simp)]
    rw [hinc]
    simp only [List.foldl_nil]
    rw [if_neg (show ¬((0 : Int) < 0) from by norm_num)]
    simp
  unfold generate_digit_map_all
  rw [hgen]
  rw [if_neg (show ¬(((rawEmit c.extens).length : Int) ≤ 0) from by omega)]
  refine ⟨rfl, ?_⟩
  dsimp only
  rw [rawEmit_drop c.extens hkept]

/-- Witness for C4's amended theorem: priority-2 and reserved-name entries are
dropped, the kept pattern _1N is translated, no leading separator remains. -/
theorem c4_witness :
    (generate_digit_map_all (storeSingle [⟨"_1N", 1⟩, ⟨"x", 2⟩, ⟨"a", 1⟩]) "A").1 = 0 ∧
    (generate_digit_map_all (storeSingle [⟨"_1N", 1⟩, ⟨"x", 2⟩, ⟨"a", 1⟩]) "A").2.1 =
      some ("1[2-9]".toList) := by
  have h := c4_single_context_join (storeSingle [⟨"_1N", 1⟩, ⟨"x", 2⟩, ⟨"a", 1⟩]) "A"
    ⟨"A", [⟨"_1N", 1⟩, ⟨"x", 2⟩, ⟨"a", 1⟩], []⟩ rfl rfl (fun cn ch => rfl)
    (by decide) (by decide)
  refine ⟨h.1, h.2.trans ?_⟩
  decide

/-- C3: the output buffer never overflows its fixed 2048-byte capacity:
(1) an append whose fragment meets or exceeds the remaining capacity fails;
(2) a successful append commits exactly the fragment, which strictly fits;
(3) the generator preserves committed-plus-remaining and keeps at least one
byte of headroom, so the total bytes committed never exceed the capacity;
(4) any digit map the driver produces fits the capacity with room for the
stripped separator and the terminator; and (5) a single extension whose
translation cannot fit makes the whole generation return the failure result
-1 with no output rather than a truncated digit map. -/
theorem c3_buffer_never_exceeded :
    (∀ (frag : List Char) (st : GBuf), st.rem ≤ frag.length → buf_append frag st = none) ∧
    (∀ (frag : List Char) (st st' : GBuf), buf_append frag st = some st' →
      st'.out = st.out ++ frag ∧ frag.length < st.rem) ∧
    (∀ (s : Store) (pfx : List Char) (context : String) (stack : List String) (st : GBuf),
      1 ≤ st.rem → stack.length < AST_PBX_MAX_STACK →
      (generate_digit_map s pfx context stack st).2.out.length +
          (generate_digit_map s pfx context stack st).2.rem = st.out.length + st.rem ∧
        1 ≤ (generate_digit_map s pfx context stack st).2.rem) ∧
    (∀ (s : Store) (context : String) (out : List Char),
      (generate_digit_map_all s context).2.1 = some out → out.length + 2 ≤ BUF_SIZE) ∧
    (∀ (nm : String), ¬(nm = "a" ∨ nm = "i" ∨ nm = "s" ∨ nm = "t") →
      BUF_SIZE - 1 ≤ (translatePattern (stripSentinel nm)).length →
      (generate_digit_map_all (storeSingle [⟨nm, 1⟩]) "A").1 = -1 ∧
        (generate_digit_map_all (storeSingle [⟨nm, 1⟩]) "A").2.1 = none) := by
  refine ⟨fun frag st h => buf_append_eq_none h, ?_, ?_, ?_, ?_⟩
  · intro frag st st' h
    obtain ⟨hst, hlt⟩ := buf_append_some h
    subst hst
    exact ⟨rfl, hlt⟩
  · intro s pfx context stack st h hs
    obtain ⟨hr, ht, _⟩ := generate_digit_map_grows s pfx context stack st h hs
    exact ⟨ht, hr⟩
  · intro s context out hout
    obtain ⟨hr, ht, _⟩ := generate_digit_map_grows s [] context []
      ⟨[], BUF_SIZE, []⟩ (by decide) (by decide)
    unfold generate_digit_map_all at hout
    by_cases hle : (generate_digit_map s [] context [] ⟨[], BUF_SIZE, []⟩).1 ≤ 0
    · rw [if_pos hle] at hout
      cases hout
    · rw [if_neg hle] at hout
      simp only [Option.some.injEq] at hout
      subst hout
      rw [List.length_drop]
      have h1 : (generate_digit_map s [] context [] ⟨[], BUF_SIZE, []⟩).2.out.length +
          (generate_digit_map s [] context [] ⟨[], BUF_SIZE, []⟩).2.rem = BUF_SIZE := by
        simpa using ht
      have hB : BUF_SIZE = 2048 := rfl
      omega
  · intro nm hres hbig
    have hfind : ast_context_find (storeSingle [⟨nm, 1⟩]) "A" =
        some ⟨"A", [⟨nm, 1⟩], []⟩ := rfl
    have hne : stripSentinel nm ≠ [] := by
      intro he
      rw [he] at hbig
      simp [translatePattern_nil, BUF_SIZE] at hbig
    have hgen1 : (generate_digit_map (storeSingle [⟨nm, 1⟩]) [] "A" []
        ⟨[], BUF_SIZE, []⟩).1 = -1 := by
      rw [generate_digit_map_some hfind]
      dsimp only
      simp only [List.nil_append, List.length_nil]
      rw [extenLoop]
      rw [processExten_unfold (storeSingle [⟨nm, 1⟩]) ["A"] [] ⟨nm, 1⟩
        ⟨[], BUF_SIZE, [Diag.crawl 0 "A"]⟩ hres rfl (by simp [BUF_SIZE])]
      rw [show (["A"].any fun cn => (storeSingle [⟨nm, 1⟩]).ignorepat cn
          (firstDialed [] (stripSentinel (⟨nm, 1⟩ : ast_exten).name))) = false from by
        simp [storeSingle]]
      have hg := charLoop_grows nm [] (stripSentinel nm) false ⟨0, 0, 0⟩
        ⟨[] ++ '|' :: [], BUF_SIZE - (1 + List.length ([] : List Char)), [Diag.crawl 0 "A"]⟩
        (by simp [BUF_SIZE])
      have hfail := charLoop_fail nm [] (stripSentinel nm) ⟨0, 0, 0⟩
        ⟨[] ++ '|' :: [], BUF_SIZE - (1 + List.length ([] : List Char)), [Diag.crawl 0 "A"]⟩
        hne (by simp; omega)
      cases hcl : charLoop nm [] (stripSentinel nm) false ⟨0, 0, 0⟩
          ⟨[] ++ '|' :: [], BUF_SIZE - (1 + List.length ([] : List Char)),
           [Diag.crawl 0 "A"]⟩ with
      | mk failed stX =>
        rw [hcl] at hfail hg
        dsimp only at hfail hg
        subst hfail
        dsimp only
        rw [extenLoop]
        rw [show (if (true : Bool) = true then (-1 : Int) else 0) = -1 from by norm_num]
        rw [if_neg (show ¬(((-1 : Int)) ≠ 0 ∧ stX.rem = 0) from by
          have := hg.1
          omega)]
        simp only [List.foldl_nil]
        rw [if_pos (show ((-1 : Int) < 0) from by norm_num)]
    constructor
    · unfold generate_digit_map_all
      simp only [hgen1]
      norm_num
    · unfold generate_digit_map_all
      simp only [hgen1]
      norm_num

/-- Witness for C3: a 2048-byte fragment is refused by an empty 2048-byte
buffer, and a single pattern of 2047 digits (translating to itself) makes the
whole generation fail with no output. -/
theorem c3_witness :
    buf_append (List.replicate BUF_SIZE 'x') ⟨[], BUF_SIZE, []⟩ = none ∧
    (generate_digit_map_all
      (storeSingle [⟨String.mk (List.replicate 2047 '5'), 1⟩]) "A").1 = -1 := by
  have hrep : ∀ n : Nat, translatePattern (List.replicate n '5') = List.replicate n '5' := by
    intro n
    induction n with
    | zero => rfl
    | succ k ih =>
      rw [List.replicate_succ, translatePattern_cons, ih,
        show transChar '5' = ['5'] from by decide]
      rfl
  constructor
  · exact c3_buffer_never_exceeded.1 _ _ (by simp)
  · refine (c3_buffer_never_exceeded.2.2.2.2 (String.mk (List.replicate 2047 '5')) ?_ ?_).1
    · have hlen : (String.mk (List.replicate 2047 '5')).data.length = 2047 := by
        rw [show (String.mk (List.replicate 2047 '5')).data =
          List.replicate 2047 '5' from rfl, List.length_replicate]
      rintro (h | h | h | h) <;> rw [h] at hlen <;> exact absurd hlen (by decide)
    · have hstrip : stripSentinel (String.mk (List.replicate 2047 '5')) =
          List.replicate 2047 '5' := by
        unfold stripSentinel
        rw [show (String.mk (List.replicate 2047 '5')).toList =
          List.replicate 2047 '5' from rfl]
        rw [show List.replicate 2047 '5' = '5' :: List.replicate 2046 '5' from rfl]
        rfl
      rw [hstrip, hrep, List.length_replicate]
      decide

/-- C6: for a kept extension entry with a non-empty stripped pattern, the
first dialed digit is the first character of the accumulated prefix when the
prefix is non-empty and the first character of the sentinel-stripped name
otherwise; when the ignore predicate matches that digit for any context name
on the include stack, exactly one second-dial-tone comma is inserted into the
alternative: right after the prefix when the prefix is non-empty, otherwise
right after the translation of the first pattern character. -/
theorem c6_first_digit_comma (s : Store) (stack : List String) (pfx : List Char)
    (e : ast_exten) (st : GBuf) (c0 : Char) (nmrest : List Char)
    (hres : ¬(e.name = "a" ∨ e.name = "i" ∨ e.name = "s" ∨ e.name = "t"))
    (hpri : e.priority = 1)
    (hnm : stripSentinel e.name = c0 :: nmrest)
    (hcap : pfx.length + (translatePattern (c0 :: nmrest)).length + 3 < st.rem) :
    ∃ ds r, processExten s stack pfx e st =
      (ExtOutcome.cont false,
       ⟨st.out ++ '|' :: pfx ++
          (if stack.any (fun cn => s.ignorepat cn
               (if pfx = [] then c0 else pfx.headD (Char.ofNat 0))) then
             (if pfx = [] then transChar c0 ++ ',' :: translatePattern nmrest
              else ',' :: translatePattern (c0 :: nmrest))
           else translatePattern (c0 :: nmrest)),
        r, st.diags ++ ds⟩) := by
  have hlensplit : (translatePattern (c0 :: nmrest)).length =
      (transChar c0).length + (translatePattern nmrest).length := by
    rw [translatePattern_cons, List.length_append]
  rw [processExten_unfold s stack pfx e st hres hpri (by omega)]
  rw [hnm]
  have hfd : firstDialed pfx (c0 :: nmrest) =
      (if pfx = [] then c0 else pfx.headD (Char.ofNat 0)) := by
    unfold firstDialed
    by_cases hp : pfx = [] <;> simp [hp]
  rw [hfd]
  by_cases hig : (stack.any fun cn => s.ignorepat cn
      (if pfx = [] then c0 else pfx.headD (Char.ofNat 0))) = true
  · rw [hig]
    by_cases hp : pfx = []
    · subst hp
      obtain ⟨ds, hcl⟩ := charLoop_igEmpty e.name c0 nmrest ⟨0, 0, 0⟩
        ⟨st.out ++ '|' :: [], st.rem - (1 + List.length ([] : List Char)), st.diags⟩
        (by simp; omega)
      rw [hcl]
      refine ⟨ds, st.rem - (1 + List.length ([] : List Char)) -
        ((transChar c0).length + 1 + (translatePattern nmrest).length), ?_⟩
      simp [List.append_assoc]
    · obtain ⟨ds, hcl⟩ := charLoop_igPfxNe e.name pfx c0 nmrest ⟨0, 0, 0⟩
        ⟨st.out ++ '|' :: pfx, st.rem - (1 + pfx.length), st.diags⟩ hp
        (by simp; omega)
      rw [hcl]
      refine ⟨ds, st.rem - (1 + pfx.length) -
        (1 + (translatePattern (c0 :: nmrest)).length), ?_⟩
      simp [hp, List.append_assoc]
  · have hig2 : (stack.any fun cn => s.ignorepat cn
        (if pfx = [] then c0 else pfx.headD (Char.ofNat 0))) = false := by
      simpa using hig
    rw [hig2]
    obtain ⟨ds, hcl⟩ := charLoop_noIg e.name pfx (c0 :: nmrest) ⟨0, 0, 0⟩
      ⟨st.out ++ '|' :: pfx, st.rem - (1 + pfx.length), st.diags⟩
      (by simp; omega)
    rw [hcl]
    refine ⟨ds, st.rem - (1 + pfx.length) - (translatePattern (c0 :: nmrest)).length, ?_⟩
    simp [hig2, List.append_assoc]

/-- Witness for C6: prefix 9, ignore pattern active for 9 in context A on the
stack, pattern _1X: the alternative reads bar 9 comma 1 x. -/
theorem c6_witness : ∃ ds r,
    processExten ⟨[], fun cn ch => cn == "A" && ch == '9'⟩ ["A"] ['9']
      ⟨"_1X", 1⟩ ⟨[], 64, []⟩ =
      (ExtOutcome.cont false, ⟨"|9,1x".toList, r, ds⟩) := by
  obtain ⟨ds, r, h⟩ := c6_first_digit_comma ⟨[], fun cn ch => cn == "A" && ch == '9'⟩
    ["A"] ['9'] ⟨"_1X", 1⟩ ⟨[], 64, []⟩ '1' ['X']
    (by decide) (by decide) (by decide) (by decide)
  rw [show ([] : List Char) ++ '|' :: ['9'] ++
      (if (["A"].any fun cn => (⟨[], fun cn ch => cn == "A" && ch == '9'⟩ : Store).ignorepat cn
           (if (['9'] : List Char) = [] then '1' else ['9'].headD (Char.ofNat 0))) then
         (if (['9'] : List Char) = [] then transChar '1' ++ ',' :: translatePattern ['X']
          else ',' :: translatePattern ('1' :: ['X']))
       else translatePattern ('1' :: ['X'])) = "|9,1x".toList from by decide] at h
  rw [show ([] : List Diag) ++ ds = ds from by simp] at h
  exact ⟨ds, r, h⟩

/-- C7: for every bracket class holding one bare digit and one digit range
(pattern sentinel, a literal, then the class), generation still succeeds, the
output contains the literal characters of the class unchanged, and exactly
one MalformedPattern (digit/range combination) diagnostic is recorded at the
closing bracket. -/
theorem c7_combo_nonfatal (d a b : Char) (hd : d.isDigit = true)
    (ha : a.isDigit = true) (hb : b.isDigit = true) :
    generate_digit_map_all
        (storeSingle [⟨String.mk ['_', '2', '[', d, a, '-', b, ']'], 1⟩]) "A" =
      (0, some ['2', '[', d, a, '-', b, ']'],
       [Diag.crawl 0 "A",
        Diag.malformedCombo (String.mk ['_', '2', '[', d, a, '-', b, ']'])]) := by
  obtain ⟨hdS, hdOp, hdCl, hdDot, hdDash, hdT⟩ := digit_facts hd
  obtain ⟨haS, haOp, haCl, haDot, haDash, haT⟩ := digit_facts ha
  obtain ⟨hbS, hbOp, hbCl, hbDot, hbDash, hbT⟩ := digit_facts hb
  have hlen8 : (String.mk ['_', '2', '[', d, a, '-', b, ']']).data.length = 8 := rfl
  have hresv : ¬(String.mk ['_', '2', '[', d, a, '-', b, ']'] = "a" ∨
      String.mk ['_', '2', '[', d, a, '-', b, ']'] = "i" ∨
      String.mk ['_', '2', '[', d, a, '-', b, ']'] = "s" ∨
      String.mk ['_', '2', '[', d, a, '-', b, ']'] = "t") := by
    rintro (h | h | h | h) <;> rw [h] at hlen8 <;> exact absurd hlen8 (by decide)
  have hstrip : stripSentinel (String.mk ['_', '2', '[', d, a, '-', b, ']']) =
      ['2', '[', d, a, '-', b, ']'] := rfl
  have htr : translatePattern ['2', '[', d, a, '-', b, ']'] =
      ['2', '[', d, a, '-', b, ']'] := by
    simp [translatePattern_cons, translatePattern_nil, hdT, haT, hbT,
      show transChar '2' = ['2'] from by decide,
      show transChar '[' = ['['] from by decide,
      show transChar '-' = ['-'] from by decide,
      show transChar ']' = [']'] from by decide]
  have s1 : bookkeep (String.mk ['_', '2', '[', d, a, '-', b, ']']) d ⟨1, 0, 0⟩ =
      (⟨1, 1, 0⟩, []) := by
    rw [bookkeep_item _ d ⟨1, 0, 0⟩ hdS hdOp hdCl hdDot hdDash (by decide)]
    norm_num
  have s2 : bookkeep (String.mk ['_', '2', '[', d, a, '-', b, ']']) a ⟨1, 1, 0⟩ =
      (⟨1, 2, 0⟩, []) := by
    rw [bookkeep_item _ a ⟨1, 1, 0⟩ haS haOp haCl haDot haDash (by decide)]
    norm_num
  have s3 : bookkeep (String.mk ['_', '2', '[', d, a, '-', b, ']']) '-' ⟨1, 2, 0⟩ =
      (⟨1, 1, 1⟩, []) := by
    rw [bookkeep_dash _ ⟨1, 2, 0⟩ (by decide)]
    norm_num
  have s4 : bookkeep (String.mk ['_', '2', '[', d, a, '-', b, ']']) b ⟨1, 1, 1⟩ =
      (⟨1, 2, 1⟩, []) := by
    rw [bookkeep_item _ b ⟨1, 1, 1⟩ hbS hbOp hbCl hbDot hbDash (by decide)]
    norm_num
  have hrun : bookkeepRun (String.mk ['_', '2', '[', d, a, '-', b, ']'])
      ['2', '[', d, a, '-', b, ']'] ⟨0, 0, 0⟩ =
      [Diag.malformedCombo (String.mk ['_', '2', '[', d, a, '-', b, ']'])] := by
    simp [bookkeepRun, bookkeep_plain _ '2' (by decide) (by decide) (by decide),
      bookkeep_open, s1, s2, s3, s4,
      bookkeep_close_combo _ ⟨1, 2, 1⟩ rfl (by decide) (by decide)]
  have hgen := generate_single_noIg (String.mk ['_', '2', '[', d, a, '-', b, ']'])
    hresv (by
      rw [hstrip, htr, show (['2', '[', d, a, '-', b, ']'] : List Char).length = 7 from rfl]
      decide)
  rw [hstrip, htr, hrun] at hgen
  unfold generate_digit_map_all
  rw [hgen]
  rw [if_neg (show ¬((1 + (List.length ['2', '[', d, a, '-', b, ']'] : Int)) ≤ 0) from by
    simp)]
  simp

/-- Witness for C7 at the digits 0, 3 and 9 (the class 03-9). -/
theorem c7_witness :
    generate_digit_map_all (storeSingle [⟨String.mk ['_', '2', '[', '0', '3', '-', '9', ']'], 1⟩]) "A" =
      (0, some ['2', '[', '0', '3', '-', '9', ']'],
       [Diag.crawl 0 "A",
        Diag.malformedCombo (String.mk ['_', '2', '[', '0', '3', '-', '9', ']'])]) :=
  c7_combo_nonfatal '0' '3' '9' (by decide) (by decide) (by decide)

/-- C9: the prefix handed to an included context is the parent prefix
concatenated with the include's sub-prefix, silently truncated to its first
31 characters (the 32-byte snprintf buffer): the included context's
alternative is emitted under the truncated prefix, generation succeeds, and
no diagnostic beyond the two crawl records is produced. -/
theorem c9_prefix_truncation (pfx sub : List Char) :
    generate_digit_map (storeC9 sub) pfx "A" [] ⟨[], BUF_SIZE, []⟩ =
      ((2 + ((pfx ++ sub).take 31).length : Int),
       ⟨'|' :: ((pfx ++ sub).take 31 ++ ['2']),
        BUF_SIZE - (2 + ((pfx ++ sub).take 31).length),
        [Diag.crawl 0 "A", Diag.crawl 1 "B"]⟩) := by
  have hB : BUF_SIZE = 2048 := rfl
  have hfindA : ast_context_find (storeC9 sub) "A" =
      some ⟨"A", [], [String.mk ('B' :: '|' :: '|' :: sub)]⟩ := rfl
  have hfindB : ast_context_find (storeC9 sub) "B" =
      some ⟨"B", [⟨"_2", 1⟩], []⟩ := rfl
  have hparse : parseInclude (String.mk ('B' :: '|' :: '|' :: sub)) = ("B", sub) := rfl
  have hknum : ((pfx ++ sub).take 31).length ≤ 31 := by
    simp [List.length_take]
  have hgenB : generate_digit_map (storeC9 sub) ((pfx ++ sub).take 31) "B" ["A"]
      ⟨[], BUF_SIZE, [Diag.crawl 0 "A"]⟩ =
      ((2 + ((pfx ++ sub).take 31).length : Int),
       ⟨'|' :: ((pfx ++ sub).take 31 ++ ['2']),
        BUF_SIZE - (2 + ((pfx ++ sub).take 31).length),
        [Diag.crawl 0 "A", Diag.crawl 1 "B"]⟩) := by
    rw [generate_digit_map_some hfindB]
    dsimp only
    simp only [List.cons_append, List.nil_append, List.length_singleton]
    rw [extenLoop]
    rw [processExten_unfold (storeC9 sub) ["A", "B"] ((pfx ++ sub).take 31) ⟨"_2", 1⟩
      ⟨[], BUF_SIZE, [Diag.crawl 0 "A", Diag.crawl 1 "B"]⟩ (by decide) rfl
      (by dsimp only; omega)]
    rw [show (["A", "B"].any fun cn => (storeC9 sub).ignorepat cn
        (firstDialed ((pfx ++ sub).take 31)
          (stripSentinel (⟨"_2", 1⟩ : ast_exten).name))) = false from by
      simp [storeC9]]
    rw [show stripSentinel (⟨"_2", 1⟩ : ast_exten).name = ['2'] from rfl]
    rw [charLoop_noIg_full "_2" ((pfx ++ sub).take 31) ['2'] ⟨0, 0, 0⟩
      ⟨[] ++ '|' :: (pfx ++ sub).take 31,
       BUF_SIZE - (1 + ((pfx ++ sub).take 31).length),
       [Diag.crawl 0 "A", Diag.crawl 1 "B"]⟩
      (by rw [show translatePattern ['2'] = ['2'] from by decide]; simp; omega)]
    dsimp only
    rw [extenLoop]
    simp only [Bool.false_eq_true, if_false, List.foldl_nil]
    simp only [st1_skip, ite_zlt]
    rw [show translatePattern ['2'] = ['2'] from by decide]
    rw [show bookkeepRun "_2" ['2'] ⟨0, 0, 0⟩ = [] from by
      simp [bookkeepRun, bookkeep_plain "_2" '2' (by decide) (by decide) (by decide)]]
    simp
    constructor
    · omega
    · omega
  rw [generate_digit_map_noext hfindA rfl]
  dsimp only
  simp only [List.nil_append, List.length_nil, List.foldl_cons, List.foldl_nil]
  rw [includeStep_rec (String.mk ('B' :: '|' :: '|' :: sub)) (by norm_num) (by decide)
    (by rw [hparse]; dsimp only; decide)
    (by rw [hparse]; dsimp only; decide)]
  rw [hparse]
  dsimp only
  rw [hgenB]
  dsimp only
  rw [if_neg (show ¬((2 + (((pfx ++ sub).take 31).length : Int)) < 0) from by omega)]
  simp
  omega

/-- C10: the include stack discipline: every crawl record added by a call
that starts below the maximum depth carries an in-bounds array index (the
push of line 81 never writes out of bounds and the counter never exceeds
AST_PBX_MAX_STACK); a call whose context does not resolve returns the failure
leaving output, capacity and prior diagnostics untouched (no push, balanced
stack); and the duplicate check is case-insensitive: a context A including
the lowercase spelling a of its own name skips it as a circular include
rather than recursing. -/
theorem c10_stack_invariant (s : Store) (pfx : List Char) (context : String)
    (stack : List String) (st : GBuf)
    (hrem : 1 ≤ st.rem) (hs : stack.length < AST_PBX_MAX_STACK) :
    (∀ n cx, Diag.crawl n cx ∈ (generate_digit_map s pfx context stack st).2.diags →
      Diag.crawl n cx ∈ st.diags ∨ n < AST_PBX_MAX_STACK) ∧
    (ast_context_find s context = none →
      generate_digit_map s pfx context stack st =
        (-1, { st with diags := st.diags ++ [Diag.contextNotFound context] })) ∧
    generate_digit_map_all storeCaseIns "A" =
      (0, some ['1'], [Diag.crawl 0 "A", Diag.circularInclude "a" "A"]) := by
  refine ⟨?_, ?_, ?_⟩
  · intro n cx hmem
    obtain ⟨hr, ht, ds, hd, hp⟩ := generate_digit_map_grows s pfx context stack st hrem hs
    rw [hd] at hmem
    rcases List.mem_append.1 hmem with h | h
    · exact Or.inl h
    · exact Or.inr (hp _ h n cx rfl)
  · intro hfind
    exact generate_digit_map_none hfind
  · rw [generate_digit_map_all_eval]
    decide

/-- Witness for C10: the invariant applied to the case-insensitive
self-include store at the root call. -/
theorem c10_witness :
    generate_digit_map_all storeCaseIns "A" =
      (0, some ['1'], [Diag.crawl 0 "A", Diag.circularInclude "a" "A"]) :=
  (c10_stack_invariant storeCaseIns [] "A" [] ⟨[], BUF_SIZE, []⟩
    (by decide) (by decide)).2.2

end Digitmap
